import Mathlib

/-!
Shallow embedding of the split-virtqueue core of `virtio-drivers`
(`src/queue.rs`), together with proofs of functional-correctness,
error-handling and invariant properties of `VirtQueue::new`, `add`,
`pop_used`, `recycle_descriptors`, `can_pop`, `peek_used`,
`available_desc` and `VirtQueueLayout::new`.

Modelling conventions:
* machine integers (`u16`, `u32`, `u64`) become `Nat`, with `% 65536`
  written out where the Rust code uses `u16::wrapping_add`;
* the descriptor table and the two rings become Lean lists; raw-pointer
  indexing becomes `List.getD` (indices are in bounds under the free-list
  invariant, where Rust would otherwise panic);
* the HAL is an oracle: a buffer carries the physical address that
  `H::share` returns for it (`Buffer.paddr`); `H::unshare` invocations are
  logged as `UnshareCall` values;
* a possibly-null raw buffer pointer (`*const [u8]`) becomes
  `Option Buffer`, `none` being the null pointer;
* a Rust panic (`unwrap` of null, `expect` / `panic!` in the recycler)
  becomes the result `none` of an `Option`-valued operation;
* memory fences order accesses by a concurrent device and have no effect
  on the sequential driver-side state modelled here.
-/

namespace VirtioQueue

/-- `BufferDirection` from the HAL interface. -/
inductive BufferDirection where
  | DriverToDevice
  | DeviceToDriver
deriving DecidableEq, Repr

/-- The error variants of the crate that the queue core can surface. -/
inductive Error where
  | AlreadyUsed
  | InvalidParam
  | QueueFull
  | NotReady
  | WrongToken
deriving DecidableEq, Repr

/-- A (non-null) driver buffer, as seen through the HAL oracle: `len` is the
byte length of the slice and `paddr` is the physical address that `H::share`
returns when the buffer is shared with the device. -/
structure Buffer where
  paddr : Nat
  len : Nat
deriving DecidableEq, Repr

/-- One descriptor-table entry (`struct Descriptor`): `addr : u64`,
`len : u32`, `flags : u16` (bits: NEXT = 1, WRITE = 2, INDIRECT = 4),
`next : u16`. -/
structure Descriptor where
  addr : Nat
  len : Nat
  flags : Nat
  next : Nat
deriving DecidableEq, Repr

instance : Inhabited Descriptor := ⟨⟨0, 0, 0, 0⟩⟩

/-- `DescFlags::NEXT`. -/
def FLAG_NEXT : Nat := 1

/-- `DescFlags::WRITE`. -/
def FLAG_WRITE : Nat := 2

/-- `flags.contains(DescFlags::NEXT)`. -/
def Descriptor.hasNext (d : Descriptor) : Bool :=
  d.flags &&& FLAG_NEXT != 0

/-- `Descriptor::next(&self)`: the index of the next descriptor in the chain
if the NEXT flag is set, `none` otherwise. -/
def Descriptor.chainNext (d : Descriptor) : Option Nat :=
  if d.hasNext then some d.next else none

/-- `Descriptor::set_buf`: record the shared physical address, the length and
the flags (`extra_flags` plus WRITE for a device-writable buffer). The `next`
field is untouched. -/
def Descriptor.set_buf (d : Descriptor) (buf : Buffer)
    (direction : BufferDirection) (extra_flags : Nat) : Descriptor :=
  { d with
    addr := buf.paddr
    len := buf.len
    flags := extra_flags |||
      match direction with
      | BufferDirection.DeviceToDriver => FLAG_WRITE
      | BufferDirection.DriverToDevice => 0 }

/-- `Descriptor::unset_buf`: zero the address and length. -/
def Descriptor.unset_buf (d : Descriptor) : Descriptor :=
  { d with addr := 0, len := 0 }

/-- The available ring (`struct AvailRing`); `ring` has `queue_size`
entries. -/
structure AvailRing where
  flags : Nat
  idx : Nat
  ring : List Nat
  used_event : Nat
deriving DecidableEq, Repr

/-- One used-ring element (`struct UsedElem`): `id : u32`, `len : u32`. -/
structure UsedElem where
  id : Nat
  len : Nat
deriving DecidableEq, Repr

instance : Inhabited UsedElem := ⟨⟨0, 0⟩⟩

/-- The used ring (`struct UsedRing`); `ring` has `queue_size` entries. -/
structure UsedRing where
  flags : Nat
  idx : Nat
  ring : List UsedElem
  avail_event : Nat
deriving DecidableEq, Repr

/-- Driver-private queue state (`struct VirtQueue`). The DMA guard and the
raw region pointers are represented by the lists themselves. -/
structure VirtQueue where
  desc : List Descriptor
  avail : AvailRing
  used : UsedRing
  queue_idx : Nat
  queue_size : Nat
  num_used : Nat
  free_head : Nat
  avail_idx : Nat
  last_used_idx : Nat
deriving DecidableEq, Repr

/-- The transport operations `VirtQueue::new` consults. -/
structure Transport where
  queue_used : Nat → Bool
  max_queue_size : Nat

/-- One logged invocation of `H::unshare(paddr, buffer, direction)`. -/
structure UnshareCall where
  paddr : Nat
  buffer : Buffer
  direction : BufferDirection
deriving DecidableEq, Repr

/-- Pair each buffer of one slice with its direction; `none` (the `unwrap`
panic of `input_output_iter`) as soon as a buffer pointer is null. -/
def collectBufs (dir : BufferDirection) :
    List (Option Buffer) → Option (List (Buffer × BufferDirection))
  | [] => some []
  | none :: _ => none
  | some b :: rest => (collectBufs dir rest).map (fun l => (b, dir) :: l)

/-- `input_output_iter`: the buffers of `inputs` then `outputs`, each paired
with its direction; `none` (panic) if any buffer pointer is null. -/
def input_output_iter (inputs outputs : List (Option Buffer)) :
    Option (List (Buffer × BufferDirection)) :=
  match collectBufs BufferDirection.DriverToDevice inputs,
        collectBufs BufferDirection.DeviceToDriver outputs with
  | some i, some o => some (i ++ o)
  | _, _ => none

/-- The descriptor-allocation loop of `VirtQueue::add`: for each buffer, fill
the descriptor at the current `free_head` via `set_buf` (with extra flag
NEXT), remember it as `last`, and advance `free_head` to that descriptor's
`next`. Returns the updated table, the new `free_head` and `last`. -/
def addLoop : List (Buffer × BufferDirection) → List Descriptor → Nat → Nat →
    List Descriptor × Nat × Nat
  | [], desc, fh, last => (desc, fh, last)
  | (b, dir) :: rest, desc, fh, _last =>
    let d := (desc.getD fh default).set_buf b dir FLAG_NEXT
    addLoop rest (desc.set fh d) d.next fh

/-- `u16::is_power_of_two`. -/
def u16_is_power_of_two (n : Nat) : Bool :=
  n != 0 && n &&& (n - 1) == 0

/-- `VirtQueue::add`. Returns `none` on a panic (null buffer pointer);
otherwise the result (token or error) together with the post-state. Error
paths return before any mutation, so the post-state is the input state
there. -/
def VirtQueue.add (q : VirtQueue) (inputs outputs : List (Option Buffer)) :
    Option (Except Error Nat × VirtQueue) :=
  if inputs.isEmpty && outputs.isEmpty then
    some (Except.error Error.InvalidParam, q)
  else if inputs.length + outputs.length + q.num_used > q.queue_size then
    some (Except.error Error.QueueFull, q)
  else
    match input_output_iter inputs outputs with
    | none => none
    | some bufs =>
      let head := q.free_head
      match addLoop bufs q.desc q.free_head q.free_head with
      | (desc1, fh, last) =>
        -- set last_elem.next = NULL: flags.remove(NEXT), i.e. & !1 over u16
        let dl := desc1.getD last default
        let desc2 := desc1.set last { dl with flags := dl.flags &&& 65534 }
        let num_used' := q.num_used + (inputs.length + outputs.length)
        let avail_slot := q.avail_idx &&& (q.queue_size - 1)
        let avail_idx' := (q.avail_idx + 1) % 65536
        some (Except.ok head,
          { q with
            desc := desc2
            num_used := num_used'
            free_head := fh
            avail_idx := avail_idx'
            avail := { q.avail with
              ring := q.avail.ring.set avail_slot head
              idx := avail_idx' } })

/-- `VirtQueue::can_pop`: compare `last_used_idx` with the device-written
`used.idx` (the read fence has no sequential effect). -/
def VirtQueue.can_pop (q : VirtQueue) : Bool :=
  q.last_used_idx != q.used.idx

/-- `VirtQueue::peek_used`: the id (a `u32`, truncated to `u16`) at
`used.ring[last_used_idx & (queue_size - 1)]`, if the ring is non-empty. -/
def VirtQueue.peek_used (q : VirtQueue) : Option Nat :=
  if q.can_pop then
    let last_used_slot := q.last_used_idx &&& (q.queue_size - 1)
    some ((q.used.ring.getD last_used_slot default).id % 65536)
  else
    none

/-- `VirtQueue::available_desc`: `queue_size - num_used` (u16 subtraction;
`num_used ≤ queue_size` holds in every reachable state). -/
def VirtQueue.available_desc (q : VirtQueue) : Nat :=
  q.queue_size - q.num_used

/-- `VirtQueue::size`. -/
def VirtQueue.size (q : VirtQueue) : Nat :=
  q.queue_size

/-- The walk of `VirtQueue::recycle_descriptors`: one iteration per buffer.
`none` is the `expect` panic (chain shorter than the buffer list). Each step
captures `addr`, zeroes the entry, decrements `num_used`, reads
`next`-if-NEXT, and overwrites the terminal descriptor's `next` with
`original_free_head` (`ofh`). Returns the table, the remaining `num_used`,
the final `next` value, and the logged unshare calls in order. -/
def recycleLoop : List (Buffer × BufferDirection) → List Descriptor →
    Option Nat → Nat → Nat →
    Option (List Descriptor × Nat × Option Nat × List UnshareCall)
  | [], desc, next, nu, _ => some (desc, nu, next, [])
  | (buf, dir) :: rest, desc, next, nu, ofh =>
    match next with
    | none => none
    | some i =>
      let d := desc.getD i default
      let paddr := d.addr
      let next' := d.chainNext
      let d1 := d.unset_buf
      let d2 := if next'.isNone then { d1 with next := ofh } else d1
      match recycleLoop rest (desc.set i d2) next' (nu - 1) ofh with
      | none => none
      | some (ds, n, nx, calls) => some (ds, n, nx, ⟨paddr, buf, dir⟩ :: calls)

/-- `VirtQueue::recycle_descriptors`: set `free_head := head`, walk the chain
against the buffers, and panic (`none`) if the chain is longer than the
buffer list (`next` still `some` after the loop). -/
def VirtQueue.recycle_descriptors (q : VirtQueue) (head : Nat)
    (inputs outputs : List (Option Buffer)) :
    Option (VirtQueue × List UnshareCall) :=
  match input_output_iter inputs outputs with
  | none => none
  | some bufs =>
    match recycleLoop bufs q.desc (some head) q.num_used q.free_head with
    | none => none
    | some (desc', nu', nx, calls) =>
      if nx.isSome then none
      else some ({ q with free_head := head, desc := desc', num_used := nu' }, calls)

/-- `VirtQueue::pop_used`. `none` is a panic inside the recycler; otherwise
the device-written `len` (or an error) and the post-state. -/
def VirtQueue.pop_used (q : VirtQueue) (token : Nat)
    (inputs outputs : List (Option Buffer)) :
    Option (Except Error Nat × VirtQueue) :=
  if !q.can_pop then
    some (Except.error Error.NotReady, q)
  else
    let last_used_slot := q.last_used_idx &&& (q.queue_size - 1)
    let e := q.used.ring.getD last_used_slot default
    let index := e.id % 65536
    let len := e.len
    if index ≠ token then
      some (Except.error Error.WrongToken, q)
    else
      match q.recycle_descriptors index inputs outputs with
      | none => none
      | some (q', _) =>
        some (Except.ok len,
          { q' with last_used_idx := (q'.last_used_idx + 1) % 65536 })

/-- The descriptor table as `VirtQueue::new` initialises it: DMA memory
(zeroed, per the HAL contract) with `next = i + 1` written for
`i in 0..(size-1)`; the last descriptor's `next` keeps its initial value. -/
def initDescs (size : Nat) : List Descriptor :=
  (List.range size).map
    (fun i => { addr := 0, len := 0, flags := 0,
                next := if i + 1 < size then i + 1 else 0 })

/-- The queue state `VirtQueue::new` returns on success. -/
def freshQueue (idx size : Nat) : VirtQueue :=
  { desc := initDescs size
    avail := { flags := 0, idx := 0, ring := List.replicate size 0, used_event := 0 }
    used := { flags := 0, idx := 0, ring := List.replicate size default, avail_event := 0 }
    queue_idx := idx
    queue_size := size
    num_used := 0
    free_head := 0
    avail_idx := 0
    last_used_idx := 0 }

/-- `VirtQueue::new`. The DMA allocation (`Dma::new`, in `hal.rs`, outside
`src/`) is modelled from the spec: `dma_alloc(pages) → (vaddr, paddr)` has no
failure mode in the spec's HAL interface. -/
def VirtQueue.new (transport : Transport) (idx size : Nat) :
    Except Error VirtQueue :=
  if transport.queue_used idx then
    Except.error Error.AlreadyUsed
  else if !u16_is_power_of_two size || decide (transport.max_queue_size < size) then
    Except.error Error.InvalidParam
  else
    Except.ok (freshQueue idx size)

/-- Modelled from the spec: `PAGE_SIZE`, a crate-root constant not under
`src/`; one page is 0x1000 bytes. -/
def PAGE_SIZE : Nat := 4096

/-- Modelled from the spec: `align_up`, a crate-root helper not under `src/`,
"rounds up to the page size". -/
def align_up (size : Nat) : Nat :=
  ((size + PAGE_SIZE - 1) / PAGE_SIZE) * PAGE_SIZE

/-- `struct VirtQueueLayout`. -/
structure VirtQueueLayout where
  avail_offset : Nat
  used_offset : Nat
  size : Nat
deriving DecidableEq, Repr

/-- `VirtQueueLayout::new`: `none` is the `assert!` panic on a
non-power-of-two size. `size_of::<Descriptor>() = 16`,
`size_of::<u16>() = 2`, `size_of::<UsedElem>() = 8` from the `repr(C)`
layouts. -/
def VirtQueueLayout.new (queue_size : Nat) : Option VirtQueueLayout :=
  if !u16_is_power_of_two queue_size then none
  else
    let desc := 16 * queue_size
    let avail := 2 * (3 + queue_size)
    let used := 2 * 3 + 8 * queue_size
    some { avail_offset := desc
           used_offset := align_up (desc + avail)
           size := align_up (desc + avail) + align_up used }

/-- The `next` field of descriptor `i` in table `desc`. -/
def nxt (desc : List Descriptor) (i : Nat) : Nat :=
  (desc.getD i default).next

/-- Walk `n` steps from `head` through the descriptors' `next` fields,
collecting the visited indices (the free-list walk of spec §3/§8). -/
def walk (desc : List Descriptor) (head : Nat) : Nat → List Nat
  | 0 => []
  | n + 1 => head :: walk desc (nxt desc head) n

/-- The index reached after following `next` for `n` steps from `head`. -/
def iterNext (desc : List Descriptor) (head : Nat) : Nat → Nat
  | 0 => head
  | n + 1 => iterNext desc (nxt desc head) n

/-- `c` lists, in order, the descriptor indices of a well-formed chain in
`desc`: every non-terminal entry has NEXT set and `next` pointing at its
successor, and the terminal entry has NEXT clear. -/
def isChain (desc : List Descriptor) : List Nat → Bool
  | [] => false
  | [i] => !(desc.getD i default).hasNext
  | i :: j :: rest =>
    (desc.getD i default).hasNext && (desc.getD i default).next == j &&
      isChain desc (j :: rest)

/-- `c` lists descriptor indices whose `next` fields link them in order, the
last one pointing at `t`: the shape of a just-recycled chain stitched onto
the old free list. -/
def chainLinks (desc : List Descriptor) : List Nat → Nat → Bool
  | [], _ => false
  | [i], t => nxt desc i == t
  | i :: j :: rest, t => nxt desc i == j && chainLinks desc (j :: rest) t

/-- A queue together with ghost bookkeeping: the descriptor-index chains
currently lent to the device, newest first. -/
structure GState where
  q : VirtQueue
  flight : List (List Nat)

/-- The free-list walk of a queue: `queue_size - num_used` steps from
`free_head`. -/
def freeWalk (q : VirtQueue) : List Nat :=
  walk q.desc q.free_head (q.queue_size - q.num_used)

/-- One legal operation on a queue (spec §4.2/§5): a successful `add`, a
device step writing the used ring, or a successful `pop_used` of an
in-flight chain whose buffer list has the length supplied at `add`. -/
inductive Step : GState → GState → Prop
  | add (s : GState) (inputsB outputsB : List Buffer) (tok : Nat) (q' : VirtQueue)
      (h : s.q.add (inputsB.map some) (outputsB.map some) = some (Except.ok tok, q')) :
      Step s ⟨q', walk s.q.desc s.q.free_head (inputsB.length + outputsB.length) :: s.flight⟩
  | device (s : GState) (ur : UsedRing) :
      Step s ⟨{ s.q with used := ur }, s.flight⟩
  | pop (s : GState) (inputsB outputsB : List Buffer) (c : List Nat)
      (l₁ l₂ : List (List Nat)) (len : Nat) (q' : VirtQueue)
      (hfl : s.flight = l₁ ++ c :: l₂)
      (hlen : inputsB.length + outputsB.length = c.length)
      (hid : (s.q.used.ring.getD (s.q.last_used_idx &&& (s.q.queue_size - 1)) default).id % 65536
              = c.headD 0)
      (h : s.q.pop_used (c.headD 0) (inputsB.map some) (outputsB.map some)
              = some (Except.ok len, q')) :
      Step s ⟨q', l₁ ++ l₂⟩

/-- States reachable from a fresh queue of index `idx` and size `Q` by legal
operations. -/
def Reach (idx Q : Nat) (s : GState) : Prop :=
  Relation.ReflTransGen Step ⟨freshQueue idx Q, []⟩ s

/-- The queue invariant: `num_used` bounded by the size and matching the
total length of in-flight chains; the free-list walk and the in-flight
chains pairwise distinct and in range; every in-flight chain well formed. -/
structure Inv (Q : Nat) (s : GState) : Prop where
  size_eq : s.q.queue_size = Q
  desc_len : s.q.desc.length = Q
  num_le : s.q.num_used ≤ Q
  flight_sum : (s.flight.map List.length).sum = s.q.num_used
  chains : ∀ c ∈ s.flight, isChain s.q.desc c = true
  bounds : ∀ i ∈ freeWalk s.q ++ s.flight.flatten, i < Q
  nodup : (freeWalk s.q ++ s.flight.flatten).Nodup

/-- Concrete test fixture: the inputs of spec scenario 4, `[[1,2], [3]]`,
shared at (arbitrary) physical addresses 1000 and 2000. -/
def exIb : List (Option Buffer) := [some ⟨1000, 2⟩, some ⟨2000, 1⟩]

/-- Concrete test fixture: the outputs of spec scenario 4, `[[0,0], [0]]`,
shared at physical addresses 3000 and 4000. -/
def exOb : List (Option Buffer) := [some ⟨3000, 2⟩, some ⟨4000, 1⟩]

/-- The size-4 queue of spec scenario 4 after `add(exIb, exOb)`. -/
def exQueueAfterAdd : VirtQueue :=
  (((freshQueue 0 4).add exIb exOb).getD
    (Except.error Error.InvalidParam, freshQueue 0 4)).2

/-- `exQueueAfterAdd` after the device completes the chain, writing
`{id = 0, len = 3}` into the used ring and bumping `used.idx` (spec
scenario 5). -/
def exQueueDone : VirtQueue :=
  { exQueueAfterAdd with
    used := { exQueueAfterAdd.used with
      idx := 1
      ring := exQueueAfterAdd.used.ring.set 0 ⟨0, 3⟩ } }

/-! ### Generic list helpers -/

theorem getD_set_ne {α : Type _} (l : List α) {i j : Nat} (a d : α) (h : i ≠ j) :
    (l.set i a).getD j d = l.getD j d := by
  simp [List.getD_eq_getElem?_getD, List.getElem?_set_ne h]

theorem getD_set_self {α : Type _} (l : List α) {i : Nat} (a d : α)
    (h : i < l.length) : (l.set i a).getD i d = a := by
  simp [List.getD_eq_getElem?_getD, List.getElem?_set_eq_of_lt _ h]

theorem exists_mem_zip {α β : Type _} {l₁ : List α} :
    ∀ (l₂ : List β) {a : α}, a ∈ l₁ → l₁.length ≤ l₂.length →
      ∃ b, (a, b) ∈ l₁.zip l₂ := by
  induction l₁ with
  | nil => intro l₂ a h _; cases h
  | cons x t ih =>
    intro l₂ a h hlen
    cases l₂ with
    | nil => simp at hlen
    | cons y t₂ =>
      rcases List.mem_cons.mp h with h | h
      · exact ⟨y, by simp [h]⟩
      · obtain ⟨b, hb⟩ := ih t₂ h (by simpa using Nat.le_of_succ_le_succ (by simpa using hlen))
        exact ⟨b, by simp [hb]⟩

theorem collectBufs_map_some (dir : BufferDirection) (l : List Buffer) :
    collectBufs dir (l.map some) = some (l.map (fun b => (b, dir))) := by
  induction l with
  | nil => rfl
  | cons x t ih => simp [collectBufs, ih]

theorem collectBufs_eq_some (dir : BufferDirection) (l : List (Option Buffer)) :
    ∀ r, collectBufs dir l = some r →
      ∃ l' : List Buffer, l = l'.map some ∧ r = l'.map (fun b => (b, dir)) := by
  induction l with
  | nil =>
    intro r h
    refine ⟨[], rfl, ?_⟩
    simpa [collectBufs] using h.symm
  | cons x t ih =>
    intro r h
    cases x with
    | none => simp [collectBufs] at h
    | some a =>
      simp only [collectBufs, Option.map_eq_some'] at h
      obtain ⟨r', hr', hre⟩ := h
      obtain ⟨l', hl', hrl⟩ := ih r' hr'
      exact ⟨a :: l', by simp [hl'], by simp [← hre, hrl]⟩

theorem collectBufs_none (dir : BufferDirection) (l : List (Option Buffer))
    (h : none ∈ l) : collectBufs dir l = none := by
  induction l with
  | nil => cases h
  | cons x t ih =>
    cases x with
    | none => rfl
    | some a =>
      have ht : none ∈ t := by simpa using h
      simp [collectBufs, ih ht]

theorem input_output_iter_map_some (bi bo : List Buffer) :
    input_output_iter (bi.map some) (bo.map some) =
      some (bi.map (fun b => (b, BufferDirection.DriverToDevice)) ++
            bo.map (fun b => (b, BufferDirection.DeviceToDriver))) := by
  simp [input_output_iter, collectBufs_map_some]

theorem input_output_iter_eq_some (inputs outputs : List (Option Buffer))
    (bufs : List (Buffer × BufferDirection))
    (h : input_output_iter inputs outputs = some bufs) :
    ∃ bi bo : List Buffer, inputs = bi.map some ∧ outputs = bo.map some ∧
      bufs = bi.map (fun b => (b, BufferDirection.DriverToDevice)) ++
             bo.map (fun b => (b, BufferDirection.DeviceToDriver)) := by
  unfold input_output_iter at h
  split at h
  next i o hi ho =>
    obtain ⟨bi, hbi, hri⟩ := collectBufs_eq_some _ _ _ hi
    obtain ⟨bo, hbo, hro⟩ := collectBufs_eq_some _ _ _ ho
    refine ⟨bi, bo, hbi, hbo, ?_⟩
    simp only [Option.some_inj] at h
    rw [← h, hri, hro]
  next => simp at h

theorem input_output_iter_length (inputs outputs : List (Option Buffer))
    (bufs : List (Buffer × BufferDirection))
    (h : input_output_iter inputs outputs = some bufs) :
    bufs.length = inputs.length + outputs.length := by
  obtain ⟨bi, bo, hbi, hbo, hb⟩ := input_output_iter_eq_some _ _ _ h
  subst hbi; subst hbo; subst hb
  simp

/-! ### Free-walk lemmas -/

theorem walk_length (desc : List Descriptor) (h n : Nat) :
    (walk desc h n).length = n := by
  induction n generalizing h with
  | zero => rfl
  | succ n ih => simp [walk, ih]

theorem walk_append (desc : List Descriptor) (h m n : Nat) :
    walk desc h (m + n) = walk desc h m ++ walk desc (iterNext desc h m) n := by
  induction m generalizing h with
  | zero => simp [walk, iterNext]
  | succ m ih =>
    rw [Nat.succ_add]
    simp only [walk, iterNext, List.cons_append]
    rw [ih]

theorem walk_congr {d₁ d₂ : List Descriptor} (h n : Nat)
    (hc : ∀ i ∈ walk d₁ h n, nxt d₂ i = nxt d₁ i) :
    walk d₂ h n = walk d₁ h n := by
  induction n generalizing h with
  | zero => rfl
  | succ n ih =>
    have hh : nxt d₂ h = nxt d₁ h := hc h (by simp [walk])
    simp only [walk, hh]
    exact congrArg _ (ih (nxt d₁ h) (fun i hi => hc i (by simp [walk, hi])))

theorem walk_eq_of_nxt_eq {d₁ d₂ : List Descriptor} (h n : Nat)
    (hc : ∀ i, nxt d₂ i = nxt d₁ i) : walk d₂ h n = walk d₁ h n :=
  walk_congr h n (fun i _ => hc i)

theorem iterNext_eq_of_nxt_eq {d₁ d₂ : List Descriptor} (h n : Nat)
    (hc : ∀ i, nxt d₂ i = nxt d₁ i) : iterNext d₂ h n = iterNext d₁ h n := by
  induction n generalizing h with
  | zero => rfl
  | succ n ih =>
    show iterNext d₂ (nxt d₂ h) n = iterNext d₁ (nxt d₁ h) n
    rw [hc h]
    exact ih (nxt d₁ h)

theorem iterNext_mem_walk (desc : List Descriptor) (h : Nat) {j n : Nat}
    (hj : j < n) : iterNext desc h j ∈ walk desc h n := by
  induction j generalizing h n with
  | zero =>
    cases n with
    | zero => omega
    | succ n => simp [walk, iterNext]
  | succ j ih =>
    cases n with
    | zero => omega
    | succ n =>
      simp only [walk, iterNext, List.mem_cons]
      exact Or.inr (ih _ (by omega))

theorem iterNext_succ_last (desc : List Descriptor) (h n : Nat) :
    iterNext desc h (n + 1) = nxt desc (iterNext desc h n) := by
  induction n generalizing h with
  | zero => rfl
  | succ n ih => exact ih (nxt desc h)

/-! ### addLoop lemmas -/

theorem nxt_set_preserve (desc : List Descriptor) (k : Nat) (d : Descriptor)
    (hd : d.next = (desc.getD k default).next) (i : Nat) :
    nxt (desc.set k d) i = nxt desc i := by
  unfold nxt
  by_cases h : k = i
  · subst h
    by_cases hl : k < desc.length
    · rw [getD_set_self _ _ _ hl, hd]
    · rw [List.set_eq_of_length_le (Nat.le_of_not_lt hl)]
  · rw [getD_set_ne _ _ _ h]

theorem set_buf_next (d : Descriptor) (b : Buffer) (dir : BufferDirection)
    (f : Nat) : (d.set_buf b dir f).next = d.next := rfl

theorem addLoop_cons (b : Buffer) (dir : BufferDirection)
    (rest : List (Buffer × BufferDirection)) (desc : List Descriptor)
    (fh last : Nat) :
    addLoop ((b, dir) :: rest) desc fh last =
      addLoop rest (desc.set fh ((desc.getD fh default).set_buf b dir FLAG_NEXT))
        (nxt desc fh) fh := rfl

theorem nxt_addLoop (bufs : List (Buffer × BufferDirection)) :
    ∀ (desc : List Descriptor) (fh last i : Nat),
      nxt (addLoop bufs desc fh last).1 i = nxt desc i := by
  induction bufs with
  | nil => intro desc fh last i; rfl
  | cons bd rest ih =>
    intro desc fh last i
    obtain ⟨b, dir⟩ := bd
    rw [addLoop_cons, ih]
    exact nxt_set_preserve desc fh ((desc.getD fh default).set_buf b dir FLAG_NEXT) rfl i

theorem addLoop_length (bufs : List (Buffer × BufferDirection)) :
    ∀ (desc : List Descriptor) (fh last : Nat),
      (addLoop bufs desc fh last).1.length = desc.length := by
  induction bufs with
  | nil => intro desc fh last; rfl
  | cons bd rest ih =>
    intro desc fh last
    obtain ⟨b, dir⟩ := bd
    rw [addLoop_cons, ih]
    simp

theorem addLoop_fh (bufs : List (Buffer × BufferDirection)) :
    ∀ (desc : List Descriptor) (fh last : Nat),
      (addLoop bufs desc fh last).2.1 = iterNext desc fh bufs.length := by
  induction bufs with
  | nil => intro desc fh last; rfl
  | cons bd rest ih =>
    intro desc fh last
    obtain ⟨b, dir⟩ := bd
    rw [addLoop_cons, ih]
    show iterNext _ (nxt desc fh) rest.length = iterNext desc fh (rest.length + 1)
    rw [iterNext_eq_of_nxt_eq _ _
      (nxt_set_preserve desc fh ((desc.getD fh default).set_buf b dir FLAG_NEXT) rfl)]
    rfl

theorem addLoop_last (bufs : List (Buffer × BufferDirection)) :
    ∀ (desc : List Descriptor) (fh last : Nat), bufs ≠ [] →
      (addLoop bufs desc fh last).2.2 = iterNext desc fh (bufs.length - 1) := by
  induction bufs with
  | nil => intro _ _ _ h; exact absurd rfl h
  | cons bd rest ih =>
    intro desc fh last _
    obtain ⟨b, dir⟩ := bd
    by_cases hr : rest = []
    · subst hr; rfl
    · rw [addLoop_cons, ih _ _ _ hr]
      rw [iterNext_eq_of_nxt_eq _ _
        (nxt_set_preserve desc fh ((desc.getD fh default).set_buf b dir FLAG_NEXT) rfl)]
      show iterNext desc (nxt desc fh) (rest.length - 1) =
        iterNext desc fh ((b, dir) :: rest).length.pred
      have : ((b, dir) :: rest).length.pred = (rest.length - 1) + 1 := by
        cases rest with
        | nil => exact absurd rfl hr
        | cons _ _ => simp
      rw [this]
      rfl

theorem addLoop_getD_not_mem (bufs : List (Buffer × BufferDirection)) :
    ∀ (desc : List Descriptor) (fh last i : Nat),
      i ∉ walk desc fh bufs.length →
      (addLoop bufs desc fh last).1.getD i default = desc.getD i default := by
  induction bufs with
  | nil => intro desc fh last i _; rfl
  | cons bd rest ih =>
    intro desc fh last i hi
    obtain ⟨b, dir⟩ := bd
    simp only [List.length_cons, walk, List.mem_cons, not_or] at hi
    obtain ⟨hi1, hi2⟩ := hi
    rw [addLoop_cons, ih]
    · exact getD_set_ne _ _ _ (fun h => hi1 (h.symm))
    · rw [walk_eq_of_nxt_eq _ _
        (nxt_set_preserve desc fh ((desc.getD fh default).set_buf b dir FLAG_NEXT) rfl)]
      exact hi2

theorem addLoop_zip_spec (bufs : List (Buffer × BufferDirection)) :
    ∀ (desc : List Descriptor) (fh last : Nat),
      (walk desc fh bufs.length).Nodup →
      (∀ k ∈ walk desc fh bufs.length, k < desc.length) →
      ∀ p ∈ (walk desc fh bufs.length).zip bufs,
        (addLoop bufs desc fh last).1.getD p.1 default =
          (desc.getD p.1 default).set_buf p.2.1 p.2.2 FLAG_NEXT := by
  induction bufs with
  | nil => intro desc fh last _ _ p hp; cases hp
  | cons bd rest ih =>
    intro desc fh last hnd hbd p hp
    obtain ⟨b, dir⟩ := bd
    simp only [List.length_cons, walk] at hnd hbd hp
    have hwalk : walk (desc.set fh ((desc.getD fh default).set_buf b dir FLAG_NEXT))
        (nxt desc fh) rest.length = walk desc (nxt desc fh) rest.length :=
      walk_eq_of_nxt_eq _ _
        (nxt_set_preserve desc fh ((desc.getD fh default).set_buf b dir FLAG_NEXT) rfl)
    have hfh_lt : fh < desc.length := hbd fh (List.mem_cons_self _ _)
    have hfh_not : fh ∉ walk desc (nxt desc fh) rest.length :=
      (List.nodup_cons.mp hnd).1
    rcases List.mem_cons.mp hp with hp | hp
    · subst hp
      rw [addLoop_cons, addLoop_getD_not_mem]
      · exact getD_set_self _ _ _ hfh_lt
      · rw [hwalk]; exact hfh_not
    · have hp1 : p.1 ∈ walk desc (nxt desc fh) rest.length :=
        (List.of_mem_zip hp).1
      have hne : fh ≠ p.1 := fun h => hfh_not (h ▸ hp1)
      rw [addLoop_cons,
        ← getD_set_ne desc (a := (desc.getD fh default).set_buf b dir FLAG_NEXT)
          (d := default) hne]
      refine ih _ _ _ ?_ ?_ p ?_
      · rw [hwalk]; exact (List.nodup_cons.mp hnd).2
      · intro k hk
        rw [hwalk] at hk
        rw [List.length_set]
        exact hbd k (List.mem_cons_of_mem _ hk)
      · rw [hwalk]; exact hp

/-! ### add characterization -/

theorem add_ok_elim (q : VirtQueue) (inputs outputs : List (Option Buffer))
    (tok : Nat) (q' : VirtQueue)
    (h : q.add inputs outputs = some (Except.ok tok, q')) :
    ∃ bufs desc1 fh last,
      input_output_iter inputs outputs = some bufs ∧
      ¬(inputs.isEmpty = true ∧ outputs.isEmpty = true) ∧
      inputs.length + outputs.length + q.num_used ≤ q.queue_size ∧
      addLoop bufs q.desc q.free_head q.free_head = (desc1, fh, last) ∧
      tok = q.free_head ∧
      q' = { q with
        desc := desc1.set last { desc1.getD last default with
          flags := (desc1.getD last default).flags &&& 65534 }
        num_used := q.num_used + (inputs.length + outputs.length)
        free_head := fh
        avail_idx := (q.avail_idx + 1) % 65536
        avail := { q.avail with
          ring := q.avail.ring.set (q.avail_idx &&& (q.queue_size - 1)) q.free_head
          idx := (q.avail_idx + 1) % 65536 } } := by
  by_cases hemp : (inputs.isEmpty && outputs.isEmpty) = true
  · unfold VirtQueue.add at h
    rw [if_pos hemp] at h
    simp at h
  by_cases hfull : inputs.length + outputs.length + q.num_used > q.queue_size
  · unfold VirtQueue.add at h
    rw [if_neg hemp, if_pos hfull] at h
    simp at h
  unfold VirtQueue.add at h
  rw [if_neg hemp, if_neg hfull] at h
  split at h
  · simp at h
  next bufs hiter =>
    split at h
    next desc1 fh last heq =>
      simp only [Option.some_inj, Prod.mk.injEq, Except.ok.injEq] at h
      obtain ⟨h1, h2⟩ := h
      refine ⟨bufs, desc1, fh, last, hiter, ?_, ?_, heq, h1.symm, h2.symm⟩
      · intro hc
        exact hemp (by simp [hc.1, hc.2])
      · omega

/-! ### Chain lemmas -/

theorem isChain_congr : ∀ (c : List Nat) {d₁ d₂ : List Descriptor},
    (∀ i ∈ c, d₂.getD i default = d₁.getD i default) →
    isChain d₂ c = isChain d₁ c
  | [], _, _, _ => rfl
  | [i], _, _, h => by
    simp only [isChain]
    rw [h i (by simp)]
  | i :: j :: rest, d₁, d₂, h => by
    simp only [isChain]
    rw [h i (by simp), isChain_congr (j :: rest)
      (fun k hk => h k (List.mem_cons_of_mem _ hk))]

theorem walk_chainLinks : ∀ (c : List Nat) (desc : List Descriptor) (t m : Nat),
    chainLinks desc c t = true →
    walk desc (c.headD 0) (c.length + m) = c ++ walk desc t m
  | [], _, _, _, h => by simp [chainLinks] at h
  | [i], desc, t, m, h => by
    simp only [chainLinks, beq_iff_eq] at h
    show walk desc i (1 + m) = i :: walk desc t m
    rw [Nat.add_comm 1 m]
    simp [walk, h]
  | i :: j :: rest, desc, t, m, h => by
    simp only [chainLinks, Bool.and_eq_true, beq_iff_eq] at h
    have hrec := walk_chainLinks (j :: rest) desc t m h.2
    have hl : (i :: j :: rest).length + m = ((j :: rest).length + m) + 1 := by
      simp; omega
    rw [hl]
    simp only [walk, List.headD, h.1]
    simp only [List.headD] at hrec
    rw [hrec]
    rfl

theorem chainLinks_congr : ∀ (c : List Nat) (t : Nat) {d₁ d₂ : List Descriptor},
    (∀ i ∈ c, d₂.getD i default = d₁.getD i default) →
    chainLinks d₂ c t = chainLinks d₁ c t
  | [], _, _, _, _ => rfl
  | [i], t, _, _, h => by
    simp only [chainLinks, nxt]
    rw [h i (by simp)]
  | i :: j :: rest, t, d₁, d₂, h => by
    simp only [chainLinks, nxt]
    rw [h i (by simp), chainLinks_congr (j :: rest) t
      (fun k hk => h k (List.mem_cons_of_mem _ hk))]

/-! ### recycleLoop lemmas -/

theorem recycleLoop_cons_term (b : Buffer) (dir : BufferDirection)
    (rest : List (Buffer × BufferDirection)) (desc : List Descriptor)
    (i nu ofh : Nat) (hN : (desc.getD i default).hasNext = false) :
    recycleLoop ((b, dir) :: rest) desc (some i) nu ofh =
      (recycleLoop rest
          (desc.set i { (desc.getD i default).unset_buf with next := ofh })
          none (nu - 1) ofh).map
        (fun r => (r.1, r.2.1, r.2.2.1,
          (⟨(desc.getD i default).addr, b, dir⟩ : UnshareCall) :: r.2.2.2)) := by
  simp only [recycleLoop, Descriptor.chainNext, hN]
  simp only [Bool.false_eq_true, if_false, Option.isNone_none, if_true]
  cases recycleLoop rest
      (desc.set i { (desc.getD i default).unset_buf with next := ofh })
      none (nu - 1) ofh with
  | none => rfl
  | some r =>
    obtain ⟨ds, n, nx, calls⟩ := r
    rfl

theorem recycleLoop_cons_step (b : Buffer) (dir : BufferDirection)
    (rest : List (Buffer × BufferDirection)) (desc : List Descriptor)
    (i nu ofh : Nat) (hN : (desc.getD i default).hasNext = true) :
    recycleLoop ((b, dir) :: rest) desc (some i) nu ofh =
      (recycleLoop rest (desc.set i (desc.getD i default).unset_buf)
          (some (desc.getD i default).next) (nu - 1) ofh).map
        (fun r => (r.1, r.2.1, r.2.2.1,
          (⟨(desc.getD i default).addr, b, dir⟩ : UnshareCall) :: r.2.2.2)) := by
  simp only [recycleLoop, Descriptor.chainNext, hN]
  simp only [if_true, Option.isNone_some, Bool.false_eq_true, if_false]
  cases recycleLoop rest (desc.set i (desc.getD i default).unset_buf)
      (some (desc.getD i default).next) (nu - 1) ofh with
  | none => rfl
  | some r =>
    obtain ⟨ds, n, nx, calls⟩ := r
    rfl

/-- Recycling a well-formed chain `c` against a buffer list of the same
length succeeds, zeroes each chain descriptor, decrements `num_used` once per
descriptor, relinks the chain onto `t = ofh`, leaves everything off the chain
untouched, and logs one unshare call per (descriptor, buffer) pair in
order. -/
theorem recycleLoop_spec : ∀ (c : List Nat) (bufs : List (Buffer × BufferDirection))
    (desc : List Descriptor) (nu ofh : Nat),
    isChain desc c = true → c.Nodup → (∀ i ∈ c, i < desc.length) →
    bufs.length = c.length →
    ∃ (desc' : List Descriptor) (calls : List UnshareCall),
      recycleLoop bufs desc (some (c.headD 0)) nu ofh =
        some (desc', nu - c.length, none, calls) ∧
      desc'.length = desc.length ∧
      (∀ i, i ∉ c → desc'.getD i default = desc.getD i default) ∧
      (∀ i ∈ c, (desc'.getD i default).addr = 0 ∧ (desc'.getD i default).len = 0 ∧
         (desc'.getD i default).flags = (desc.getD i default).flags) ∧
      chainLinks desc' c ofh = true ∧
      calls = (c.zip bufs).map
        (fun p => ⟨(desc.getD p.1 default).addr, p.2.1, p.2.2⟩)
  | [], _, _, _, _ => by
    intro hc
    simp [isChain] at hc
  | [i], bufs, desc, nu, ofh => by
    intro hc hnd hbd hlen
    have hN : (desc.getD i default).hasNext = false := by
      simpa [isChain] using hc
    have hi : i < desc.length := hbd i (by simp)
    match bufs, hlen with
    | [(b, dir)], _ =>
      refine ⟨desc.set i { (desc.getD i default).unset_buf with next := ofh },
        [⟨(desc.getD i default).addr, b, dir⟩], ?_, by simp, ?_, ?_, ?_, by simp⟩
      · rw [show ([i] : List Nat).headD 0 = i from rfl,
          recycleLoop_cons_term b dir [] desc i nu ofh hN]
        rfl
      · intro k hk
        exact getD_set_ne _ _ _ (fun h => hk (h ▸ List.mem_singleton_self i))
      · intro k hk
        rw [List.mem_singleton] at hk
        subst hk
        rw [getD_set_self _ _ _ hi]
        exact ⟨rfl, rfl, rfl⟩
      · simp only [chainLinks, nxt, beq_iff_eq]
        rw [getD_set_self _ _ _ hi]
  | i :: j :: rest, bufs, desc, nu, ofh => by
    intro hc hnd hbd hlen
    have hstep : (desc.getD i default).hasNext = true ∧
        (desc.getD i default).next = j ∧ isChain desc (j :: rest) = true := by
      simpa [isChain, Bool.and_eq_true, beq_iff_eq, and_assoc] using hc
    have hi : i < desc.length := hbd i (by simp)
    have hnotmem : i ∉ j :: rest := (List.nodup_cons.mp hnd).1
    match bufs, hlen with
    | (b, dir) :: bufs', hlen =>
      have hlen' : bufs'.length = (j :: rest).length := by simpa using hlen
      have hcongr : ∀ k ∈ j :: rest,
          (desc.set i (desc.getD i default).unset_buf).getD k default =
            desc.getD k default := by
        intro k hk
        exact getD_set_ne _ _ _ (fun h => hnotmem (h ▸ hk))
      obtain ⟨desc', calls', hrec, hlen'', huntouched, hzero, hlinks, hcalls⟩ :=
        recycleLoop_spec (j :: rest) bufs'
          (desc.set i (desc.getD i default).unset_buf) (nu - 1) ofh
          (by rw [isChain_congr _ hcongr]; exact hstep.2.2)
          (List.nodup_cons.mp hnd).2
          (by intro k hk; rw [List.length_set]; exact hbd k (List.mem_cons_of_mem _ hk))
          hlen'
      have hgetd_i : desc'.getD i default = (desc.getD i default).unset_buf := by
        rw [huntouched i hnotmem]
        exact getD_set_self _ _ _ hi
      refine ⟨desc', (⟨(desc.getD i default).addr, b, dir⟩ : UnshareCall) :: calls',
        ?_, by rw [hlen'']; simp, ?_, ?_, ?_, ?_⟩
      · rw [show ((i :: j :: rest) : List Nat).headD 0 = i from rfl,
          recycleLoop_cons_step b dir bufs' desc i nu ofh hstep.1, hstep.2.1]
        rw [show ((j :: rest) : List Nat).headD 0 = j from rfl] at hrec
        rw [hrec]
        simp only [Option.map_some']
        have : nu - 1 - (j :: rest).length = nu - (i :: j :: rest).length := by
          simp; omega
        rw [this]
      · intro k hk
        simp only [List.mem_cons, not_or] at hk
        rw [huntouched k (by simp [List.mem_cons]; tauto)]
        exact getD_set_ne _ _ _ (fun h => hk.1 (h.symm))
      · intro k hk
        rcases List.mem_cons.mp hk with hk | hk
        · subst hk
          rw [hgetd_i]
          exact ⟨rfl, rfl, rfl⟩
        · obtain ⟨h1, h2, h3⟩ := hzero k hk
          exact ⟨h1, h2, by rw [h3, hcongr k hk]⟩
      · simp only [chainLinks, Bool.and_eq_true, beq_iff_eq]
        refine ⟨?_, hlinks⟩
        unfold nxt
        rw [hgetd_i]
        exact hstep.2.1
      · rw [hcalls]
        simp only [List.zip_cons_cons, List.map_cons, List.cons.injEq]
        refine ⟨trivial, ?_⟩
        apply List.map_congr_left
        intro p hp
        rw [hcongr p.1 (List.of_mem_zip hp).1]

theorem recycle_descriptors_eq (q : VirtQueue) (head : Nat)
    (inputs outputs : List (Option Buffer))
    (bufs : List (Buffer × BufferDirection))
    (hiter : input_output_iter inputs outputs = some bufs) :
    q.recycle_descriptors head inputs outputs =
      match recycleLoop bufs q.desc (some head) q.num_used q.free_head with
      | none => none
      | some (desc', nu', nx, calls) =>
        if nx.isSome then none
        else some ({ q with free_head := head, desc := desc', num_used := nu' },
          calls) := by
  unfold VirtQueue.recycle_descriptors
  rw [hiter]

/-- `recycle_descriptors` on a well-formed chain with a matching buffer
list. -/
theorem recycle_descriptors_spec (q : VirtQueue) (c : List Nat)
    (inputs outputs : List (Option Buffer))
    (bufs : List (Buffer × BufferDirection))
    (hiter : input_output_iter inputs outputs = some bufs)
    (hc : isChain q.desc c = true) (hnd : c.Nodup)
    (hbd : ∀ i ∈ c, i < q.desc.length)
    (hlen : bufs.length = c.length) :
    ∃ (desc' : List Descriptor) (calls : List UnshareCall),
      q.recycle_descriptors (c.headD 0) inputs outputs =
        some ({ q with
                  free_head := c.headD 0
                  desc := desc'
                  num_used := q.num_used - c.length }, calls) ∧
      desc'.length = q.desc.length ∧
      (∀ i, i ∉ c → desc'.getD i default = q.desc.getD i default) ∧
      (∀ i ∈ c, (desc'.getD i default).addr = 0 ∧ (desc'.getD i default).len = 0 ∧
         (desc'.getD i default).flags = (q.desc.getD i default).flags) ∧
      chainLinks desc' c q.free_head = true ∧
      calls = (c.zip bufs).map
        (fun p => ⟨(q.desc.getD p.1 default).addr, p.2.1, p.2.2⟩) := by
  obtain ⟨desc', calls, hrec, hl, hu, hz, hlk, hcl⟩ :=
    recycleLoop_spec c bufs q.desc q.num_used q.free_head hc hnd hbd hlen
  refine ⟨desc', calls, ?_, hl, hu, hz, hlk, hcl⟩
  rw [recycle_descriptors_eq q _ inputs outputs bufs hiter, hrec]
  rfl

/-- A successful `pop_used` decomposes into the `can_pop` check, the token
check against the used-ring slot, and the recycler. -/
theorem pop_used_ok_elim (q : VirtQueue) (token : Nat)
    (inputs outputs : List (Option Buffer)) (len : Nat) (q' : VirtQueue)
    (h : q.pop_used token inputs outputs = some (Except.ok len, q')) :
    q.can_pop = true ∧
    (q.used.ring.getD (q.last_used_idx &&& (q.queue_size - 1)) default).id % 65536
      = token ∧
    len = (q.used.ring.getD (q.last_used_idx &&& (q.queue_size - 1)) default).len ∧
    ∃ (q₁ : VirtQueue) (calls : List UnshareCall),
      q.recycle_descriptors token inputs outputs = some (q₁, calls) ∧
      q' = { q₁ with last_used_idx := (q₁.last_used_idx + 1) % 65536 } := by
  by_cases hcp : q.can_pop = true
  · unfold VirtQueue.pop_used at h
    rw [hcp] at h
    simp only [Bool.not_true, Bool.false_eq_true, if_false] at h
    by_cases htok :
        (q.used.ring.getD (q.last_used_idx &&& (q.queue_size - 1)) default).id % 65536
          = token
    · rw [if_neg (by simpa using htok)] at h
      refine ⟨hcp, htok, ?_⟩
      rw [htok] at h
      rcases hr : q.recycle_descriptors token inputs outputs with _ | p
      · rw [hr] at h; cases h
      · obtain ⟨q₁, calls⟩ := p
        rw [hr] at h
        simp only [Option.some_inj, Prod.mk.injEq, Except.ok.injEq] at h
        exact ⟨h.1.symm, q₁, calls, rfl, h.2.symm⟩
    · rw [if_pos (by simpa using htok)] at h
      simp at h
  · unfold VirtQueue.pop_used at h
    rw [Bool.not_eq_true] at hcp
    rw [hcp] at h
    simp at h

/-- The recycler panics when the buffer list is longer than the chain
("Descriptor chain was shorter than expected"). -/
theorem recycleLoop_short : ∀ (c : List Nat)
    (bufs : List (Buffer × BufferDirection)) (desc : List Descriptor)
    (nu ofh : Nat),
    isChain desc c = true → c.Nodup → (∀ i ∈ c, i < desc.length) →
    c.length < bufs.length →
    recycleLoop bufs desc (some (c.headD 0)) nu ofh = none
  | [], _, _, _, _ => by
    intro hc
    simp [isChain] at hc
  | [i], bufs, desc, nu, ofh => by
    intro hc _ _ hlen
    have hN : (desc.getD i default).hasNext = false := by
      simpa [isChain] using hc
    match bufs, hlen with
    | (b, dir) :: (b', dir') :: rest, _ =>
      rw [show ([i] : List Nat).headD 0 = i from rfl,
        recycleLoop_cons_term b dir ((b', dir') :: rest) desc i nu ofh hN]
      rfl
  | i :: j :: rest, bufs, desc, nu, ofh => by
    intro hc hnd hbd hlen
    have hstep : (desc.getD i default).hasNext = true ∧
        (desc.getD i default).next = j ∧ isChain desc (j :: rest) = true := by
      simpa [isChain, Bool.and_eq_true, beq_iff_eq, and_assoc] using hc
    have hnotmem : i ∉ j :: rest := (List.nodup_cons.mp hnd).1
    have hcongr : ∀ k ∈ j :: rest,
        (desc.set i (desc.getD i default).unset_buf).getD k default =
          desc.getD k default := by
      intro k hk
      exact getD_set_ne _ _ _ (fun h => hnotmem (h ▸ hk))
    match bufs, hlen with
    | (b, dir) :: bufs', hlen =>
      rw [show ((i :: j :: rest) : List Nat).headD 0 = i from rfl,
        recycleLoop_cons_step b dir bufs' desc i nu ofh hstep.1, hstep.2.1]
      rw [show (j : Nat) = ((j :: rest) : List Nat).headD 0 from rfl]
      rw [recycleLoop_short (j :: rest) bufs'
        (desc.set i (desc.getD i default).unset_buf) (nu - 1) ofh
        (by rw [isChain_congr _ hcongr]; exact hstep.2.2)
        (List.nodup_cons.mp hnd).2
        (by intro k hk; rw [List.length_set]; exact hbd k (List.mem_cons_of_mem _ hk))
        (by simpa using hlen)]
      rfl

/-- The recycler panics when the buffer list is shorter than the chain
("Descriptor chain was longer than expected"): the walk stops with a `next`
index still pending. -/
theorem recycleLoop_long : ∀ (c : List Nat)
    (bufs : List (Buffer × BufferDirection)) (desc : List Descriptor)
    (nu ofh : Nat),
    isChain desc c = true → c.Nodup → (∀ i ∈ c, i < desc.length) →
    bufs.length < c.length →
    ∃ (desc' : List Descriptor) (nu' k : Nat) (calls : List UnshareCall),
      recycleLoop bufs desc (some (c.headD 0)) nu ofh =
        some (desc', nu', some k, calls)
  | [], _, _, _, _ => by
    intro hc
    simp [isChain] at hc
  | [i], bufs, desc, nu, ofh => by
    intro _ _ _ hlen
    match bufs, hlen with
    | [], _ => exact ⟨desc, nu, i, [], rfl⟩
  | i :: j :: rest, bufs, desc, nu, ofh => by
    intro hc hnd hbd hlen
    match bufs, hlen with
    | [], _ => exact ⟨desc, nu, i, [], rfl⟩
    | (b, dir) :: bufs', hlen =>
      have hstep : (desc.getD i default).hasNext = true ∧
          (desc.getD i default).next = j ∧ isChain desc (j :: rest) = true := by
        simpa [isChain, Bool.and_eq_true, beq_iff_eq, and_assoc] using hc
      have hnotmem : i ∉ j :: rest := (List.nodup_cons.mp hnd).1
      have hcongr : ∀ k ∈ j :: rest,
          (desc.set i (desc.getD i default).unset_buf).getD k default =
            desc.getD k default := by
        intro k hk
        exact getD_set_ne _ _ _ (fun h => hnotmem (h ▸ hk))
      obtain ⟨desc', nu', k, calls, hrec⟩ :=
        recycleLoop_long (j :: rest) bufs'
          (desc.set i (desc.getD i default).unset_buf) (nu - 1) ofh
          (by rw [isChain_congr _ hcongr]; exact hstep.2.2)
          (List.nodup_cons.mp hnd).2
          (by intro k hk; rw [List.length_set]; exact hbd k (List.mem_cons_of_mem _ hk))
          (by simpa using hlen)
      refine ⟨desc', nu', k,
        (⟨(desc.getD i default).addr, b, dir⟩ : UnshareCall) :: calls, ?_⟩
      rw [show ((i :: j :: rest) : List Nat).headD 0 = i from rfl,
        recycleLoop_cons_step b dir bufs' desc i nu ofh hstep.1, hstep.2.1]
      rw [show (j : Nat) = ((j :: rest) : List Nat).headD 0 from rfl, hrec]
      rfl

/-- `recycle_descriptors` panics whenever the chain and buffer lengths
disagree. -/
theorem recycle_descriptors_mismatch (q : VirtQueue) (c : List Nat)
    (inputs outputs : List (Option Buffer))
    (bufs : List (Buffer × BufferDirection))
    (hiter : input_output_iter inputs outputs = some bufs)
    (hc : isChain q.desc c = true) (hnd : c.Nodup)
    (hbd : ∀ i ∈ c, i < q.desc.length)
    (hne : bufs.length ≠ c.length) :
    q.recycle_descriptors (c.headD 0) inputs outputs = none := by
  rw [recycle_descriptors_eq q _ inputs outputs bufs hiter]
  rcases Nat.lt_or_ge bufs.length c.length with hlt | hge
  · obtain ⟨desc', nu', k, calls, hrec⟩ :=
      recycleLoop_long c bufs q.desc q.num_used q.free_head hc hnd hbd hlt
    rw [hrec]
    rfl
  · have hlt : c.length < bufs.length := by omega
    rw [recycleLoop_short c bufs q.desc q.num_used q.free_head hc hnd hbd hlt]

/-! ### Fresh-queue lemmas -/

theorem initDescs_length (size : Nat) : (initDescs size).length = size := by
  simp [initDescs]

theorem initDescs_getD (size i : Nat) (hi : i < size) :
    (initDescs size).getD i default =
      { addr := 0, len := 0, flags := 0,
        next := if i + 1 < size then i + 1 else 0 } := by
  unfold initDescs
  rw [List.getD_eq_getElem?_getD, List.getElem?_map, List.getElem?_range hi]
  rfl

theorem walk_initDescs (size : Nat) : ∀ (n i : Nat), i + n ≤ size →
    walk (initDescs size) i n = List.range' i n := by
  intro n
  induction n with
  | zero => intro i _; rfl
  | succ n ih =>
    intro i hi
    show i :: walk (initDescs size) (nxt (initDescs size) i) n = List.range' i (n + 1)
    have hilt : i < size := by omega
    have hnxt : nxt (initDescs size) i = if i + 1 < size then i + 1 else 0 := by
      unfold nxt
      rw [initDescs_getD size i hilt]
    by_cases hlt : i + 1 < size
    · rw [hnxt, if_pos hlt, ih (i + 1) (by omega)]
      rfl
    · have hn0 : n = 0 := by omega
      subst hn0
      simp [walk, List.range']

/-- The queue invariant holds on a fresh queue. -/
theorem Inv_init (idx Q : Nat) : Inv Q ⟨freshQueue idx Q, []⟩ := by
  have hfw : freeWalk (freshQueue idx Q) = List.range Q := by
    unfold freeWalk freshQueue
    simp only [Nat.sub_zero]
    rw [walk_initDescs Q Q 0 (by omega), List.range_eq_range']
  refine ⟨rfl, initDescs_length Q, Nat.zero_le Q, rfl, ?_, ?_, ?_⟩
  · intro c hc
    cases hc
  · intro i hi
    simp only [List.flatten_nil, List.append_nil, hfw] at hi
    exact List.mem_range.mp hi
  · simp only [List.flatten_nil, List.append_nil, hfw]
    exact List.nodup_range Q

/-! ### Flag helpers -/

theorem set_buf_hasNext (d : Descriptor) (b : Buffer) (dir : BufferDirection) :
    (d.set_buf b dir FLAG_NEXT).hasNext = true := by
  cases dir <;>
    simp [Descriptor.set_buf, Descriptor.hasNext, FLAG_NEXT, FLAG_WRITE]

theorem cleared_hasNext (d : Descriptor) :
    Descriptor.hasNext { d with flags := d.flags &&& 65534 } = false := by
  simp only [Descriptor.hasNext, FLAG_NEXT, ne_eq, bne_iff_ne]
  simp only [Nat.and_assoc]
  simp

/-- Building the device-visible chain shape from a free-list walk whose
descriptors were all given the NEXT flag except the last. -/
theorem isChain_walk_build (desc2 desc : List Descriptor) :
    ∀ (n fh : Nat), n ≠ 0 →
    (∀ i, nxt desc2 i = nxt desc i) →
    (∀ i ∈ walk desc fh (n - 1), (desc2.getD i default).hasNext = true) →
    ((desc2.getD (iterNext desc fh (n - 1)) default).hasNext = false) →
    isChain desc2 (walk desc fh n) = true := by
  intro n
  induction n with
  | zero => intro fh h; exact absurd rfl h
  | succ n ih =>
    intro fh _ hnxt hflag hlast
    cases n with
    | zero =>
      show isChain desc2 [fh] = true
      simp only [isChain, Bool.not_eq_true']
      exact hlast
    | succ n' =>
      show isChain desc2 (fh :: walk desc (nxt desc fh) (n' + 1)) = true
      rw [show walk desc (nxt desc fh) (n' + 1) =
            nxt desc fh :: walk desc (nxt desc (nxt desc fh)) n' from rfl]
      simp only [isChain, Bool.and_eq_true, beq_iff_eq]
      refine ⟨⟨?_, ?_⟩, ?_⟩
      · exact hflag fh (by
          show fh ∈ walk desc fh (n' + 1)
          cases n' <;> simp [walk])
      · show (desc2.getD fh default).next = nxt desc fh
        exact hnxt fh
      · rw [show (nxt desc fh :: walk desc (nxt desc (nxt desc fh)) n' : List Nat) =
              walk desc (nxt desc fh) (n' + 1) from rfl]
        refine ih (nxt desc fh) (by omega) hnxt ?_ ?_
        · intro i hi
          refine hflag i ?_
          show i ∈ walk desc fh (n' + 1)
          rw [show walk desc fh (n' + 1) =
                fh :: walk desc (nxt desc fh) n' from rfl]
          simp only [Nat.add_sub_cancel] at hi
          exact List.mem_cons_of_mem _ hi
        · simpa using hlast

/-! ### Invariant preservation -/

theorem Inv_device {Q : Nat} {s : GState} (hInv : Inv Q s) (ur : UsedRing) :
    Inv Q ⟨{ s.q with used := ur }, s.flight⟩ := by
  obtain ⟨h1, h2, h3, h4, h5, h6, h7⟩ := hInv
  exact ⟨h1, h2, h3, h4, h5, h6, h7⟩

theorem Inv_add {Q : Nat} {s : GState}
    (hInv : Inv Q s) (inputsB outputsB : List Buffer) (tok : Nat) (q' : VirtQueue)
    (h : s.q.add (inputsB.map some) (outputsB.map some) = some (Except.ok tok, q')) :
    Inv Q ⟨q', walk s.q.desc s.q.free_head (inputsB.length + outputsB.length)
      :: s.flight⟩ := by
  obtain ⟨hsz, hdl, hnl, hfs, hch, hbd, hnd⟩ := hInv
  obtain ⟨bufs, desc1, fh, last, hiter, hne, hfit, heq, htok, hq'⟩ :=
    add_ok_elim _ _ _ _ _ h
  subst hq'
  have hbufs_len : bufs.length = inputsB.length + outputsB.length := by
    have := input_output_iter_length _ _ _ hiter
    simpa using this
  have hn_pos : 0 < inputsB.length + outputsB.length := by
    rcases Nat.eq_zero_or_pos (inputsB.length + outputsB.length) with h0 | h0
    · exfalso
      apply hne
      have hi0 : inputsB = [] := List.length_eq_zero.mp (by omega)
      have ho0 : outputsB = [] := List.length_eq_zero.mp (by omega)
      subst hi0; subst ho0
      exact ⟨rfl, rfl⟩
    · exact h0
  have hfit' : inputsB.length + outputsB.length + s.q.num_used ≤ Q := by
    rw [← hsz]
    simpa using hfit
  -- free-walk decomposition: the first n entries become the new chain
  have hm : Q - s.q.num_used =
      (inputsB.length + outputsB.length) + (Q - s.q.num_used - (inputsB.length + outputsB.length)) := by
    omega
  have hFW : freeWalk s.q =
      walk s.q.desc s.q.free_head (inputsB.length + outputsB.length) ++
      walk s.q.desc (iterNext s.q.desc s.q.free_head (inputsB.length + outputsB.length))
        (Q - s.q.num_used - (inputsB.length + outputsB.length)) := by
    unfold freeWalk
    rw [hsz]
    conv_lhs => rw [hm]
    rw [walk_append]
  rw [hFW] at hnd hbd
  have hW_nd : (walk s.q.desc s.q.free_head (inputsB.length + outputsB.length)).Nodup :=
    hnd.of_append_left.of_append_left
  have hW_bd : ∀ i ∈ walk s.q.desc s.q.free_head (inputsB.length + outputsB.length),
      i < s.q.desc.length := by
    intro i hi
    rw [hdl]
    exact hbd i (List.mem_append_left _ (List.mem_append_left _ hi))
  -- addLoop component values
  have hdesc1 : desc1 = (addLoop bufs s.q.desc s.q.free_head s.q.free_head).1 := by
    rw [heq]
  have hfh : fh = iterNext s.q.desc s.q.free_head (inputsB.length + outputsB.length) := by
    have := addLoop_fh bufs s.q.desc s.q.free_head s.q.free_head
    rw [heq, hbufs_len] at this
    exact this
  have hbufs_ne : bufs ≠ [] := by
    intro h0
    rw [h0] at hbufs_len
    simp at hbufs_len
    omega
  have hlast : last = iterNext s.q.desc s.q.free_head
      ((inputsB.length + outputsB.length) - 1) := by
    have := addLoop_last bufs s.q.desc s.q.free_head s.q.free_head hbufs_ne
    rw [heq, hbufs_len] at this
    exact this
  have hlen1 : desc1.length = s.q.desc.length := by
    rw [hdesc1]
    exact addLoop_length bufs s.q.desc s.q.free_head s.q.free_head
  have hnxt1 : ∀ i, nxt desc1 i = nxt s.q.desc i := by
    intro i
    rw [hdesc1]
    exact nxt_addLoop bufs s.q.desc s.q.free_head s.q.free_head i
  have hnxt2 : ∀ i, nxt (desc1.set last { desc1.getD last default with
      flags := (desc1.getD last default).flags &&& 65534 }) i = nxt s.q.desc i := by
    intro i
    rw [nxt_set_preserve desc1 last { desc1.getD last default with
      flags := (desc1.getD last default).flags &&& 65534 } rfl i]
    exact hnxt1 i
  have hlast_memW : last ∈ walk s.q.desc s.q.free_head (inputsB.length + outputsB.length) := by
    rw [hlast]
    exact iterNext_mem_walk _ _ (by omega)
  have hlast_lt : last < desc1.length := by
    rw [hlen1]
    exact hW_bd last hlast_memW
  -- the new descriptor table
  have huntouched : ∀ i, i ∉ walk s.q.desc s.q.free_head (inputsB.length + outputsB.length) →
      (desc1.set last { desc1.getD last default with
        flags := (desc1.getD last default).flags &&& 65534 }).getD i default =
      s.q.desc.getD i default := by
    intro i hi
    rw [getD_set_ne _ _ _ (fun hx => hi (by rw [← hx]; exact hlast_memW)), hdesc1]
    apply addLoop_getD_not_mem
    rw [hbufs_len]
    exact hi
  -- walk split: all but the last position, then the last position
  have hW_split : walk s.q.desc s.q.free_head (inputsB.length + outputsB.length) =
      walk s.q.desc s.q.free_head ((inputsB.length + outputsB.length) - 1) ++
      [iterNext s.q.desc s.q.free_head ((inputsB.length + outputsB.length) - 1)] := by
    have h1 : inputsB.length + outputsB.length =
        ((inputsB.length + outputsB.length) - 1) + 1 := by omega
    rw [h1, walk_append]
    rfl
  have hlast_notin : iterNext s.q.desc s.q.free_head ((inputsB.length + outputsB.length) - 1)
      ∉ walk s.q.desc s.q.free_head ((inputsB.length + outputsB.length) - 1) := by
    intro hmem
    rw [hW_split] at hW_nd
    obtain ⟨-, -, hdisj⟩ := List.nodup_append.mp hW_nd
    exact hdisj hmem (by simp)
  have hflags : ∀ i ∈ walk s.q.desc s.q.free_head ((inputsB.length + outputsB.length) - 1),
      ((desc1.set last { desc1.getD last default with
        flags := (desc1.getD last default).flags &&& 65534 }).getD i default).hasNext
        = true := by
    intro i hi
    have hiW : i ∈ walk s.q.desc s.q.free_head (inputsB.length + outputsB.length) := by
      rw [hW_split]
      exact List.mem_append_left _ hi
    have hine : last ≠ i := by
      rw [hlast]
      intro hx
      exact hlast_notin (hx ▸ hi)
    rw [getD_set_ne _ _ _ hine, hdesc1]
    obtain ⟨bd, hbd_mem⟩ := exists_mem_zip bufs hiW
      (by rw [walk_length]; omega)
    have := addLoop_zip_spec bufs s.q.desc s.q.free_head s.q.free_head
      (by rw [hbufs_len]; exact hW_nd)
      (by rw [hbufs_len]; exact hW_bd) (i, bd)
      (by rw [hbufs_len]; exact hbd_mem)
    rw [this]
    exact set_buf_hasNext _ _ _
  have hlast_flag : ((desc1.set last { desc1.getD last default with
      flags := (desc1.getD last default).flags &&& 65534 }).getD
        (iterNext s.q.desc s.q.free_head ((inputsB.length + outputsB.length) - 1))
        default).hasNext = false := by
    rw [← hlast, getD_set_self _ _ _ hlast_lt]
    exact cleared_hasNext _
  have hchainW : isChain (desc1.set last { desc1.getD last default with
      flags := (desc1.getD last default).flags &&& 65534 })
      (walk s.q.desc s.q.free_head (inputsB.length + outputsB.length)) = true :=
    isChain_walk_build _ s.q.desc (inputsB.length + outputsB.length) s.q.free_head
      (by omega) hnxt2 hflags hlast_flag
  -- assemble the invariant
  refine ⟨hsz, ?_, ?_, ?_, ?_, ?_, ?_⟩
  · show (desc1.set last _).length = Q
    rw [List.length_set, hlen1, hdl]
  · show s.q.num_used + ((inputsB.map some).length + (outputsB.map some).length) ≤ Q
    simp only [List.length_map]
    omega
  · show ((walk s.q.desc s.q.free_head (inputsB.length + outputsB.length)).length +
      (s.flight.map List.length).sum) =
      s.q.num_used + ((inputsB.map some).length + (outputsB.map some).length)
    rw [walk_length, hfs]
    simp only [List.length_map]
    omega
  · intro c hc
    rcases List.mem_cons.mp hc with hc | hc
    · subst hc
      exact hchainW
    · show isChain (desc1.set last _) c = true
      rw [isChain_congr c (fun i hi => huntouched i (fun hiW => ?_))]
      · exact hch c hc
      · have hiJ : i ∈ s.flight.flatten := by
          exact List.mem_flatten.mpr ⟨c, hc, hi⟩
        obtain ⟨-, -, hdisj⟩ := List.nodup_append.mp hnd
        exact hdisj (List.mem_append_left _ hiW) hiJ
  · intro i hi
    have hFW' : freeWalk { s.q with
        desc := desc1.set last { desc1.getD last default with
          flags := (desc1.getD last default).flags &&& 65534 }
        num_used := s.q.num_used + ((inputsB.map some).length + (outputsB.map some).length)
        free_head := fh
        avail_idx := (s.q.avail_idx + 1) % 65536
        avail := { s.q.avail with
          ring := s.q.avail.ring.set (s.q.avail_idx &&& (s.q.queue_size - 1)) s.q.free_head
          idx := (s.q.avail_idx + 1) % 65536 } } =
        walk s.q.desc (iterNext s.q.desc s.q.free_head (inputsB.length + outputsB.length))
          (Q - s.q.num_used - (inputsB.length + outputsB.length)) := by
      unfold freeWalk
      show walk (desc1.set last _) fh
          (s.q.queue_size - (s.q.num_used + ((inputsB.map some).length + (outputsB.map some).length)))
        = _
      rw [walk_eq_of_nxt_eq _ _ hnxt2, hfh, hsz]
      simp only [List.length_map]
      congr 1
      omega
    rw [hFW'] at hi
    simp only [List.flatten_cons, List.mem_append] at hi
    rcases hi with hi | hi | hi
    · exact hbd i (List.mem_append_left _ (List.mem_append_right _ hi))
    · exact hbd i (List.mem_append_left _ (List.mem_append_left _ hi))
    · exact hbd i (List.mem_append_right _ hi)
  · have hFW' : freeWalk { s.q with
        desc := desc1.set last { desc1.getD last default with
          flags := (desc1.getD last default).flags &&& 65534 }
        num_used := s.q.num_used + ((inputsB.map some).length + (outputsB.map some).length)
        free_head := fh
        avail_idx := (s.q.avail_idx + 1) % 65536
        avail := { s.q.avail with
          ring := s.q.avail.ring.set (s.q.avail_idx &&& (s.q.queue_size - 1)) s.q.free_head
          idx := (s.q.avail_idx + 1) % 65536 } } =
        walk s.q.desc (iterNext s.q.desc s.q.free_head (inputsB.length + outputsB.length))
          (Q - s.q.num_used - (inputsB.length + outputsB.length)) := by
      unfold freeWalk
      show walk (desc1.set last _) fh
          (s.q.queue_size - (s.q.num_used + ((inputsB.map some).length + (outputsB.map some).length)))
        = _
      rw [walk_eq_of_nxt_eq _ _ hnxt2, hfh, hsz]
      simp only [List.length_map]
      congr 1
      omega
    rw [hFW']
    simp only [List.flatten_cons]
    have hperm : List.Perm
        (walk s.q.desc (iterNext s.q.desc s.q.free_head (inputsB.length + outputsB.length))
          (Q - s.q.num_used - (inputsB.length + outputsB.length)) ++
         (walk s.q.desc s.q.free_head (inputsB.length + outputsB.length) ++
          s.flight.flatten))
        ((walk s.q.desc s.q.free_head (inputsB.length + outputsB.length) ++
          walk s.q.desc (iterNext s.q.desc s.q.free_head (inputsB.length + outputsB.length))
            (Q - s.q.num_used - (inputsB.length + outputsB.length))) ++
         s.flight.flatten) := by
      rw [List.perm_iff_count]
      intro a
      simp only [List.count_append]
      omega
    exact hperm.symm.nodup hnd

theorem Inv_pop {Q : Nat} {s : GState}
    (hInv : Inv Q s) (inputsB outputsB : List Buffer) (c : List Nat)
    (l₁ l₂ : List (List Nat)) (len : Nat) (q' : VirtQueue)
    (hfl : s.flight = l₁ ++ c :: l₂)
    (hlen : inputsB.length + outputsB.length = c.length)
    (h : s.q.pop_used (c.headD 0) (inputsB.map some) (outputsB.map some)
          = some (Except.ok len, q')) :
    Inv Q ⟨q', l₁ ++ l₂⟩ := by
  obtain ⟨hsz, hdl, hnl, hfs, hch, hbd, hnd⟩ := hInv
  have hcmem : c ∈ s.flight := by
    rw [hfl]
    exact List.mem_append_right _ (List.mem_cons_self _ _)
  have hchain : isChain s.q.desc c = true := hch c hcmem
  rw [hfl] at hnd hbd hfs
  have hflat : (l₁ ++ c :: l₂).flatten = l₁.flatten ++ (c ++ l₂.flatten) := by
    simp
  rw [hflat] at hnd hbd
  obtain ⟨hF_nd, hrest_nd, hdisjF⟩ := List.nodup_append.mp hnd
  obtain ⟨hl1_nd, hc2_nd, hdisj1⟩ := List.nodup_append.mp hrest_nd
  obtain ⟨hc_nd, hl2_nd, hdisj2⟩ := List.nodup_append.mp hc2_nd
  have hc_notF : ∀ i ∈ c, i ∉ freeWalk s.q := by
    intro i hic hif
    exact hdisjF hif (List.mem_append_right _ (List.mem_append_left _ hic))
  have hc_bd : ∀ i ∈ c, i < s.q.desc.length := by
    intro i hic
    rw [hdl]
    exact hbd i (List.mem_append_right _ (List.mem_append_right _ (List.mem_append_left _ hic)))
  have hclen_le : c.length ≤ s.q.num_used := by
    rw [← hfs]
    simp only [List.map_append, List.map_cons, List.sum_append, List.sum_cons]
    omega
  obtain ⟨hcp, hid_eq, hlen_eq, q₁, calls, hrecyc, hq'⟩ :=
    pop_used_ok_elim _ _ _ _ _ _ h
  obtain ⟨desc', calls', hrec', hdlen', huntouched, hzero, hlinks, hcalls⟩ :=
    recycle_descriptors_spec s.q c (inputsB.map some) (outputsB.map some)
      (inputsB.map (fun b => (b, BufferDirection.DriverToDevice)) ++
       outputsB.map (fun b => (b, BufferDirection.DeviceToDriver)))
      (input_output_iter_map_some _ _) hchain hc_nd hc_bd
      (by simpa using hlen)
  rw [hrec'] at hrecyc
  simp only [Option.some_inj, Prod.mk.injEq] at hrecyc
  obtain ⟨hq₁, -⟩ := hrecyc
  subst hq'
  rw [← hq₁]
  -- the new free walk is the chain pushed onto the old free list
  have hm_eq : Q - (s.q.num_used - c.length) = c.length + (Q - s.q.num_used) := by
    omega
  have hFW' : walk desc' (c.headD 0) (c.length + (Q - s.q.num_used)) =
      c ++ freeWalk s.q := by
    rw [walk_chainLinks c desc' s.q.free_head (Q - s.q.num_used) hlinks]
    congr 1
    unfold freeWalk
    rw [hsz]
    apply walk_congr
    intro i hif
    have hinc : i ∉ c := by
      intro hic
      apply hc_notF i hic
      unfold freeWalk
      rw [hsz]
      exact hif
    unfold nxt
    rw [huntouched i hinc]
  refine ⟨hsz, ?_, ?_, ?_, ?_, ?_, ?_⟩
  · show desc'.length = Q
    rw [hdlen', hdl]
  · show s.q.num_used - c.length ≤ Q
    omega
  · show ((l₁ ++ l₂).map List.length).sum = s.q.num_used - c.length
    simp only [List.map_append, List.map_cons, List.sum_append, List.sum_cons] at hfs
    simp only [List.map_append, List.sum_append]
    omega
  · intro c' hc'
    show isChain desc' c' = true
    have hc'mem : c' ∈ l₁ ∨ c' ∈ l₂ := by
      simpa using hc'
    rw [isChain_congr c' (fun i hi => huntouched i ?_)]
    · rcases hc'mem with hm | hm
      · exact hch c' (by rw [hfl]; exact List.mem_append_left _ hm)
      · exact hch c'
          (by rw [hfl]; exact List.mem_append_right _ (List.mem_cons_of_mem _ hm))
    · intro hic
      rcases hc'mem with hm | hm
      · exact hdisj1 (List.mem_flatten.mpr ⟨c', hm, hi⟩) (List.mem_append_left _ hic)
      · exact hdisj2 hic (List.mem_flatten.mpr ⟨c', hm, hi⟩)
  · intro i hi
    show i < Q
    simp only [freeWalk] at hi
    rw [hsz, hm_eq, hFW'] at hi
    simp only [List.mem_append, List.flatten_append] at hi
    rcases hi with (hi | hi) | hi | hi
    · exact hbd i (List.mem_append_right _ (List.mem_append_right _ (List.mem_append_left _ hi)))
    · exact hbd i (List.mem_append_left _ hi)
    · exact hbd i (List.mem_append_right _ (List.mem_append_left _ hi))
    · exact hbd i (List.mem_append_right _ (List.mem_append_right _ (List.mem_append_right _ hi)))
  · show (freeWalk _ ++ (l₁ ++ l₂).flatten).Nodup
    simp only [freeWalk]
    rw [hsz, hm_eq, hFW']
    have hperm : List.Perm
        ((c ++ freeWalk s.q) ++ (l₁ ++ l₂).flatten)
        (freeWalk s.q ++ (l₁.flatten ++ (c ++ l₂.flatten))) := by
      rw [List.perm_iff_count]
      intro a
      simp only [List.count_append, List.flatten_append]
      omega
    exact hperm.symm.nodup hnd

theorem Inv_step {Q : Nat} {s s' : GState} (hInv : Inv Q s) (hstep : Step s s') :
    Inv Q s' := by
  cases hstep with
  | add inputsB outputsB tok q' h =>
    exact Inv_add hInv inputsB outputsB tok q' h
  | device ur =>
    exact Inv_device hInv ur
  | pop inputsB outputsB c l₁ l₂ len q' hfl hlen hid h =>
    exact Inv_pop hInv inputsB outputsB c l₁ l₂ len q' hfl hlen h

theorem Inv_reach (idx Q : Nat) (s : GState) (h : Reach idx Q s) : Inv Q s := by
  unfold Reach at h
  induction h with
  | refl => exact Inv_init idx Q
  | tail hsteps hstep ih => exact Inv_step ih hstep

/-! ### Claim theorems -/

/-- C3: for every queue of size `Q` reached from a fresh queue by legal `add`
/ `pop_used` operations (with arbitrary device completions of in-flight
chains), `num_used ≤ Q` and `available_desc() = Q − num_used` hold after each
operation, and the free-list walk from `free_head` through the descriptors'
`next` fields yields exactly `Q − num_used` distinct descriptor indices, each
in `[0, Q)`. -/
theorem queue_invariants (idx Q : Nat) (s : GState) (h : Reach idx Q s) :
    s.q.num_used ≤ Q ∧
    s.q.available_desc = Q - s.q.num_used ∧
    (walk s.q.desc s.q.free_head (Q - s.q.num_used)).length = Q - s.q.num_used ∧
    (walk s.q.desc s.q.free_head (Q - s.q.num_used)).Nodup ∧
    (∀ i ∈ walk s.q.desc s.q.free_head (Q - s.q.num_used), i < Q) := by
  obtain ⟨hsz, hdl, hnl, hfs, hch, hbd, hnd⟩ := Inv_reach idx Q s h
  have hfw : freeWalk s.q = walk s.q.desc s.q.free_head (Q - s.q.num_used) := by
    unfold freeWalk
    rw [hsz]
  rw [hfw] at hnd hbd
  refine ⟨hnl, ?_, walk_length _ _ _, hnd.of_append_left, ?_⟩
  · unfold VirtQueue.available_desc
    rw [hsz]
  · intro i hi
    exact hbd i (List.mem_append_left _ hi)

/-- Witness for C3 at the fresh size-4 queue (the empty legal sequence). -/
theorem queue_invariants_witness :
    (freshQueue 0 4).num_used ≤ 4 ∧
    (freshQueue 0 4).available_desc = 4 - (freshQueue 0 4).num_used ∧
    (walk (freshQueue 0 4).desc (freshQueue 0 4).free_head
      (4 - (freshQueue 0 4).num_used)).length = 4 - (freshQueue 0 4).num_used ∧
    (walk (freshQueue 0 4).desc (freshQueue 0 4).free_head
      (4 - (freshQueue 0 4).num_used)).Nodup ∧
    (∀ i ∈ walk (freshQueue 0 4).desc (freshQueue 0 4).free_head
      (4 - (freshQueue 0 4).num_used), i < 4) :=
  queue_invariants 0 4 ⟨freshQueue 0 4, []⟩ Relation.ReflTransGen.refl

/-- C4: the chain recycler, given the head `h` of a well-formed in-flight
chain `c` and the original buffers, sets `free_head` to `h`; for each chain
descriptor it zeroes `addr` and `len` (flags kept), decrements `num_used` by
one (in total by `|c|`), and logs `HAL::unshare(former addr, buffer,
direction)` in chain order; the terminal descriptor's `next` is overwritten
with the saved `free_head` so that walking `|c| + m` steps from the new
`free_head` yields `c` followed by the old `m`-step free list; descriptors
off the chain are untouched. -/
theorem recycle_descriptors_claim (q : VirtQueue) (c : List Nat)
    (inputsB outputsB : List Buffer)
    (hc : isChain q.desc c = true) (hnd : c.Nodup)
    (hbd : ∀ i ∈ c, i < q.desc.length)
    (hlen : inputsB.length + outputsB.length = c.length) :
    ∃ (desc' : List Descriptor) (calls : List UnshareCall),
      q.recycle_descriptors (c.headD 0) (inputsB.map some) (outputsB.map some) =
        some ({ q with
                  free_head := c.headD 0
                  desc := desc'
                  num_used := q.num_used - c.length }, calls) ∧
      (∀ i ∈ c, (desc'.getD i default).addr = 0 ∧ (desc'.getD i default).len = 0 ∧
         (desc'.getD i default).flags = (q.desc.getD i default).flags) ∧
      chainLinks desc' c q.free_head = true ∧
      (∀ m : Nat, (∀ i ∈ walk q.desc q.free_head m, i ∉ c) →
        walk desc' (c.headD 0) (c.length + m) = c ++ walk q.desc q.free_head m) ∧
      (∀ i, i ∉ c → desc'.getD i default = q.desc.getD i default) ∧
      calls = (c.zip
          (inputsB.map (fun b => (b, BufferDirection.DriverToDevice)) ++
           outputsB.map (fun b => (b, BufferDirection.DeviceToDriver)))).map
        (fun p => ⟨(q.desc.getD p.1 default).addr, p.2.1, p.2.2⟩) := by
  obtain ⟨desc', calls, hrec, hdlen, hu, hz, hlk, hcl⟩ :=
    recycle_descriptors_spec q c (inputsB.map some) (outputsB.map some)
      (inputsB.map (fun b => (b, BufferDirection.DriverToDevice)) ++
       outputsB.map (fun b => (b, BufferDirection.DeviceToDriver)))
      (input_output_iter_map_some _ _) hc hnd hbd (by simpa using hlen)
  refine ⟨desc', calls, hrec, hz, hlk, ?_, hu, hcl⟩
  intro m hdisj
  rw [walk_chainLinks c desc' q.free_head m hlk]
  congr 1
  apply walk_congr
  intro i hif
  unfold nxt
  rw [hu i (hdisj i hif)]

/-- Witness for C4: recycling the scenario-4 chain `[0, 1, 2, 3]` on
`exQueueDone`. -/
theorem recycle_descriptors_claim_witness :
    ∃ (desc' : List Descriptor) (calls : List UnshareCall),
      exQueueDone.recycle_descriptors 0
          [some ⟨1000, 2⟩, some ⟨2000, 1⟩] [some ⟨3000, 2⟩, some ⟨4000, 1⟩] =
        some ({ exQueueDone with
                  free_head := 0
                  desc := desc'
                  num_used := exQueueDone.num_used - 4 }, calls) := by
  obtain ⟨desc', calls, hrec, -, -, -, -, -⟩ :=
    recycle_descriptors_claim exQueueDone [0, 1, 2, 3]
      [⟨1000, 2⟩, ⟨2000, 1⟩] [⟨3000, 2⟩, ⟨4000, 1⟩]
      (by decide) (by decide) (by decide) (by decide)
  exact ⟨desc', calls, hrec⟩

/-- C8 counterexample: a null buffer pointer supplied to `add` does NOT
panic when the capacity check fails first — `add` on a fresh size-4 queue
with five buffers, all null, returns the `QueueFull` error (rather than the
panic `none`), because the emptiness and capacity checks precede the
buffer-sharing loop that unwraps the pointers. -/
theorem add_null_counterexample :
    (freshQueue 0 4).add [none, none, none] [none, none] =
      some (Except.error Error.QueueFull, freshQueue 0 4) ∧
    (freshQueue 0 4).add [none, none, none] [none, none] ≠ none := by
  have h1 : (freshQueue 0 4).add [none, none, none] [none, none] =
      some (Except.error Error.QueueFull, freshQueue 0 4) := rfl
  refine ⟨h1, ?_⟩
  rw [h1]
  simp

/-- C8 (amended): recycling is checked with fatal assertions. If during
`pop_used` the chain headed at the popped id has fewer descriptors than
`|inputs| + |outputs|` buffers, or more, the program panics rather than
returning an error; likewise `add` panics when any supplied buffer pointer
is null, provided the emptiness and capacity checks (which precede the
sharing loop) pass. -/
theorem fatal_assertions_spec :
    (∀ (q : VirtQueue) (c : List Nat) (inputsB outputsB : List Buffer),
      isChain q.desc c = true → c.Nodup → (∀ i ∈ c, i < q.desc.length) →
      q.can_pop = true →
      (q.used.ring.getD (q.last_used_idx &&& (q.queue_size - 1)) default).id % 65536
        = c.headD 0 →
      inputsB.length + outputsB.length ≠ c.length →
      q.pop_used (c.headD 0) (inputsB.map some) (outputsB.map some) = none) ∧
    (∀ (q : VirtQueue) (inputs outputs : List (Option Buffer)),
      ¬(inputs.isEmpty = true ∧ outputs.isEmpty = true) →
      inputs.length + outputs.length + q.num_used ≤ q.queue_size →
      (none ∈ inputs ∨ none ∈ outputs) →
      q.add inputs outputs = none) := by
  constructor
  · intro q c inputsB outputsB hc hnd hbd hcp hid hne
    unfold VirtQueue.pop_used
    rw [hcp]
    simp only [Bool.not_true, Bool.false_eq_true, if_false]
    rw [hid, if_neg (fun hx => hx rfl)]
    rw [recycle_descriptors_mismatch q c (inputsB.map some) (outputsB.map some)
      (inputsB.map (fun b => (b, BufferDirection.DriverToDevice)) ++
       outputsB.map (fun b => (b, BufferDirection.DeviceToDriver)))
      (input_output_iter_map_some _ _) hc hnd hbd (by simpa using hne)]
  · intro q inputs outputs hne hfit hnull
    have hiter : input_output_iter inputs outputs = none := by
      unfold input_output_iter
      rcases hnull with hn | hn
      · rw [collectBufs_none _ _ hn]
      · rw [collectBufs_none _ _ hn]
        rcases collectBufs BufferDirection.DriverToDevice inputs with _ | i <;> rfl
    unfold VirtQueue.add
    rw [if_neg (by simpa using fun h1 h2 => hne ⟨h1, h2⟩),
      if_neg (by omega), hiter]

/-- Witness for C8 (amended): on `exQueueDone`, popping the length-4 chain
`[0,1,2,3]` with only one buffer panics, and `add` of a null pointer on a
fresh queue panics. -/
theorem fatal_assertions_spec_witness :
    exQueueDone.pop_used 0 [some ⟨1000, 2⟩] [] = none ∧
    (freshQueue 0 4).add [none] [] = none := by
  constructor
  · exact fatal_assertions_spec.1 exQueueDone [0, 1, 2, 3] [⟨1000, 2⟩] []
      (by decide) (by decide) (by decide) (by decide) (by decide) (by decide)
  · exact fatal_assertions_spec.2 (freshQueue 0 4) [none] []
      (by decide) (by decide) (Or.inl (by decide))

/-- C2: `pop_used(token, inputs, outputs)` fails with `NotReady` when
`can_pop()` is false; otherwise, reading the used-ring slot at
`last_used_idx & (Q − 1)`, it fails with `WrongToken` when the slot's id
(a `u32`, truncated to `u16` as in the code) differs from `token`; otherwise
it recycles the chain headed at the id against `inputs ++ outputs`
(panicking, `none`, if the recycler does), advances `last_used_idx` by one
wrapping at 2^16, and returns the slot's `len` — the byte count written by
the device. -/
theorem pop_used_claim (q : VirtQueue) (token : Nat)
    (inputs outputs : List (Option Buffer)) :
    (q.can_pop = false → q.pop_used token inputs outputs =
      some (Except.error Error.NotReady, q)) ∧
    (q.can_pop = true →
      ((q.used.ring.getD (q.last_used_idx &&& (q.queue_size - 1)) default).id % 65536
          ≠ token →
        q.pop_used token inputs outputs = some (Except.error Error.WrongToken, q)) ∧
      ((q.used.ring.getD (q.last_used_idx &&& (q.queue_size - 1)) default).id % 65536
          = token →
        q.pop_used token inputs outputs =
          match q.recycle_descriptors token inputs outputs with
          | none => none
          | some (q₁, _) =>
            some (Except.ok
              (q.used.ring.getD (q.last_used_idx &&& (q.queue_size - 1)) default).len,
              { q₁ with last_used_idx := (q₁.last_used_idx + 1) % 65536 }))) := by
  refine ⟨?_, fun hcp => ⟨?_, ?_⟩⟩
  · intro hcp
    unfold VirtQueue.pop_used
    rw [hcp]
    rfl
  · intro htok
    unfold VirtQueue.pop_used
    rw [hcp]
    simp only [Bool.not_true, Bool.false_eq_true, if_false]
    rw [if_pos htok]
  · intro htok
    unfold VirtQueue.pop_used
    rw [hcp]
    simp only [Bool.not_true, Bool.false_eq_true, if_false]
    rw [htok, if_neg (fun hx => hx rfl)]

/-- Witness for C2: the three outcomes at concrete states — `NotReady` on the
fresh queue, `WrongToken` on `exQueueDone` with token 1, and the successful
pop of scenario 5 returning the 3 bytes the device wrote. -/
theorem pop_used_claim_witness :
    (freshQueue 0 4).pop_used 0 [] [] =
      some (Except.error Error.NotReady, freshQueue 0 4) ∧
    exQueueDone.pop_used 1 exIb exOb =
      some (Except.error Error.WrongToken, exQueueDone) ∧
    exQueueDone.pop_used 0 exIb exOb =
      (match exQueueDone.recycle_descriptors 0 exIb exOb with
        | none => none
        | some (q₁, _) =>
          some (Except.ok
            (exQueueDone.used.ring.getD
              (exQueueDone.last_used_idx &&& (exQueueDone.queue_size - 1)) default).len,
            { q₁ with last_used_idx := (q₁.last_used_idx + 1) % 65536 })) := by
  refine ⟨?_, ?_, ?_⟩
  · exact (pop_used_claim (freshQueue 0 4) 0 [] []).1 (by decide)
  · exact ((pop_used_claim exQueueDone 1 exIb exOb).2 (by decide)).1 (by decide)
  · exact ((pop_used_claim exQueueDone 0 exIb exOb).2 (by decide)).2 (by decide)

/-- C10: `pop_used` is atomic on error — whenever it returns `NotReady` or
`WrongToken`, the returned state is exactly the input state: no counter
advances and no descriptor is recycled; and these are the only error
variants it can return. -/
theorem pop_used_error_atomic (q : VirtQueue) (token : Nat)
    (inputs outputs : List (Option Buffer)) (e : Error) (q' : VirtQueue)
    (h : q.pop_used token inputs outputs = some (Except.error e, q')) :
    q' = q ∧ (e = Error.NotReady ∨ e = Error.WrongToken) := by
  by_cases hcp : q.can_pop = true
  · unfold VirtQueue.pop_used at h
    rw [hcp] at h
    simp only [Bool.not_true, Bool.false_eq_true, if_false] at h
    by_cases htok :
        (q.used.ring.getD (q.last_used_idx &&& (q.queue_size - 1)) default).id % 65536
          = token
    · rw [if_neg (by simpa using htok)] at h
      rcases hr : q.recycle_descriptors
          ((q.used.ring.getD (q.last_used_idx &&& (q.queue_size - 1)) default).id % 65536)
          inputs outputs with _ | p
      · rw [hr] at h
        cases h
      · obtain ⟨q₁, calls⟩ := p
        rw [hr] at h
        simp at h
    · rw [if_pos (by simpa using htok)] at h
      simp only [Option.some_inj, Prod.mk.injEq, Except.error.injEq] at h
      exact ⟨h.2.symm, Or.inr h.1.symm⟩
  · unfold VirtQueue.pop_used at h
    rw [Bool.not_eq_true] at hcp
    rw [hcp] at h
    simp only [Bool.not_false, if_true, Option.some_inj, Prod.mk.injEq,
      Except.error.injEq] at h
    exact ⟨h.2.symm, Or.inl h.1.symm⟩

/-- Witness for C10: the `NotReady` error on a fresh queue leaves the state
unchanged. -/
theorem pop_used_error_atomic_witness :
    freshQueue 0 4 = freshQueue 0 4 ∧
    (Error.NotReady = Error.NotReady ∨ Error.NotReady = Error.WrongToken) :=
  pop_used_error_atomic (freshQueue 0 4) 0 [] [] Error.NotReady (freshQueue 0 4)
    rfl

/-- C9: polling is pure and idempotent. `can_pop()` is true exactly when
`last_used_idx` differs from `used.idx`; `peek_used()` returns the id at
`used.ring[last_used_idx & (Q − 1)]` when `can_pop()` holds and `none`
otherwise; and both are functions of the (unchanged) queue state alone —
they take the state and return no updated state, so any number of calls
without an intervening `pop_used` yields the same value and leaves
`last_used_idx` and all other fields untouched. -/
theorem poll_claim (q : VirtQueue) :
    (q.can_pop = true ↔ q.last_used_idx ≠ q.used.idx) ∧
    (q.can_pop = true →
      q.peek_used = some ((q.used.ring.getD
        (q.last_used_idx &&& (q.queue_size - 1)) default).id % 65536)) ∧
    (q.can_pop = false → q.peek_used = none) ∧
    (∀ q₂ : VirtQueue, q₂.last_used_idx = q.last_used_idx → q₂.used = q.used →
      q₂.queue_size = q.queue_size →
      q₂.can_pop = q.can_pop ∧ q₂.peek_used = q.peek_used) := by
  refine ⟨?_, ?_, ?_, ?_⟩
  · unfold VirtQueue.can_pop
    simp [bne_iff_ne]
  · intro hcp
    unfold VirtQueue.peek_used
    rw [hcp]
    rfl
  · intro hcp
    unfold VirtQueue.peek_used
    rw [hcp]
    rfl
  · intro q₂ h1 h2 h3
    constructor
    · unfold VirtQueue.can_pop
      rw [h1, h2]
    · unfold VirtQueue.peek_used VirtQueue.can_pop
      rw [h1, h2, h3]

/-- Witness for C9: evaluated on `exQueueDone`, where the device has
completed chain 0. -/
theorem poll_claim_witness :
    (exQueueDone.can_pop = true ↔ exQueueDone.last_used_idx ≠ exQueueDone.used.idx) ∧
    (exQueueDone.can_pop = true → exQueueDone.peek_used =
      some ((exQueueDone.used.ring.getD
        (exQueueDone.last_used_idx &&& (exQueueDone.queue_size - 1)) default).id % 65536)) :=
  ⟨(poll_claim exQueueDone).1, (poll_claim exQueueDone).2.1⟩

/-- C5: `add(inputs, outputs)` fails with `InvalidParam` exactly when both
slices are empty, and with `QueueFull` exactly when
`|inputs| + |outputs| + num_used > queue_size` (on a queue with
`num_used ≤ queue_size`, as every real queue satisfies); on either failure
the queue state is returned unchanged. In particular a 5-buffer `add` on a
fresh size-4 queue fails `QueueFull` and `available_desc()` remains 4. -/
theorem add_error_claim (q : VirtQueue) (inputs outputs : List (Option Buffer))
    (hq : q.num_used ≤ q.queue_size) :
    (q.add inputs outputs = some (Except.error Error.InvalidParam, q) ↔
      inputs = [] ∧ outputs = []) ∧
    (q.add inputs outputs = some (Except.error Error.QueueFull, q) ↔
      inputs.length + outputs.length + q.num_used > q.queue_size) ∧
    (∀ e q', q.add inputs outputs = some (Except.error e, q') → q' = q) ∧
    (freshQueue 0 4).add [some ⟨1, 0⟩, some ⟨2, 0⟩, some ⟨3, 0⟩]
        [some ⟨4, 0⟩, some ⟨5, 0⟩] =
      some (Except.error Error.QueueFull, freshQueue 0 4) ∧
    (freshQueue 0 4).available_desc = 4 := by
  by_cases hemp : inputs = [] ∧ outputs = []
  · obtain ⟨h1, h2⟩ := hemp
    subst h1
    subst h2
    refine ⟨by simp [VirtQueue.add], ?_, ?_, rfl, rfl⟩
    · constructor
      · intro h
        simp [VirtQueue.add] at h
      · intro h
        simp only [List.length_nil] at h
        omega
    · intro e q' h
      simp only [VirtQueue.add, List.isEmpty_nil, Bool.and_self, if_true,
        Option.some_inj, Prod.mk.injEq] at h
      exact h.2.symm
  · have hempP : ¬((inputs.isEmpty && outputs.isEmpty) = true) := by
      intro h
      apply hemp
      simp only [Bool.and_eq_true, List.isEmpty_iff] at h
      exact h
    by_cases hfull : inputs.length + outputs.length + q.num_used > q.queue_size
    · have hadd : q.add inputs outputs = some (Except.error Error.QueueFull, q) := by
        unfold VirtQueue.add
        rw [if_neg hempP, if_pos hfull]
      refine ⟨?_, ?_, ?_, rfl, rfl⟩
      · rw [hadd]
        constructor
        · intro h
          simp at h
        · intro h
          exact absurd h hemp
      · exact ⟨fun _ => hfull, fun _ => hadd⟩
      · intro e q' h
        rw [hadd] at h
        simp only [Option.some_inj, Prod.mk.injEq] at h
        exact h.2.symm
    · have hnoerr : ∀ e q', q.add inputs outputs ≠ some (Except.error e, q') := by
        intro e q' h
        unfold VirtQueue.add at h
        rw [if_neg hempP, if_neg hfull] at h
        split at h
        · cases h
        · split at h
          simp at h
      refine ⟨?_, ?_, ?_, rfl, rfl⟩
      · constructor
        · intro h
          exact absurd h (hnoerr _ _)
        · intro h
          exact absurd h hemp
      · constructor
        · intro h
          exact absurd h (hnoerr _ _)
        · intro h
          exact absurd h hfull
      · intro e q' h
        exact absurd h (hnoerr _ _)

/-- Witness for C5: the empty add on a fresh size-4 queue is rejected with
`InvalidParam` and the state is unchanged. -/
theorem add_error_claim_witness :
    (freshQueue 0 4).add [] [] =
      some (Except.error Error.InvalidParam, freshQueue 0 4) :=
  (add_error_claim (freshQueue 0 4) [] [] (by decide)).1.mpr ⟨rfl, rfl⟩

/-- C6: `new(transport, idx, size)` fails `AlreadyUsed` when the transport
reports queue `idx` configured; otherwise fails `InvalidParam` when `size`
is not a power of two or exceeds the transport's maximum; otherwise succeeds
with the free list initialised by `next = i + 1` for `i ∈ [0, size − 1)`
(the last descriptor's `next` is left at its initial value) and `free_head`,
`num_used`, `avail_idx`, `last_used_idx` all zero. -/
theorem new_claim (t : Transport) (idx size : Nat) :
    (t.queue_used idx = true →
      VirtQueue.new t idx size = Except.error Error.AlreadyUsed) ∧
    (t.queue_used idx = false →
      (u16_is_power_of_two size = false ∨ t.max_queue_size < size) →
      VirtQueue.new t idx size = Except.error Error.InvalidParam) ∧
    (t.queue_used idx = false → u16_is_power_of_two size = true →
      size ≤ t.max_queue_size →
      VirtQueue.new t idx size = Except.ok (freshQueue idx size) ∧
      (∀ i, i + 1 < size → nxt (freshQueue idx size).desc i = i + 1) ∧
      (freshQueue idx size).free_head = 0 ∧
      (freshQueue idx size).num_used = 0 ∧
      (freshQueue idx size).avail_idx = 0 ∧
      (freshQueue idx size).last_used_idx = 0) := by
  refine ⟨?_, ?_, ?_⟩
  · intro hused
    unfold VirtQueue.new
    rw [if_pos hused]
  · intro hused hbad
    unfold VirtQueue.new
    rw [if_neg (by rw [hused]; simp)]
    rw [if_pos ?_]
    rcases hbad with hb | hb
    · rw [hb]
      simp
    · simp only [Bool.or_eq_true, decide_eq_true_eq]
      exact Or.inr hb
  · intro hused hpow hle
    refine ⟨?_, ?_, rfl, rfl, rfl, rfl⟩
    · unfold VirtQueue.new
      rw [if_neg (by rw [hused]; simp), if_neg ?_]
      simp only [Bool.or_eq_true, Bool.not_eq_true', decide_eq_true_eq, not_or]
      exact ⟨by simp [hpow], by omega⟩
    · intro i hi
      show nxt (initDescs size) i = i + 1
      unfold nxt
      rw [initDescs_getD size i (by omega)]
      simp [hi]

/-- Witness for C6: a transport with maximum queue size 4 and queue 0 free —
`new` succeeds on size 4, and the fresh queue's free list is `0 → 1 → 2 →
3`. -/
theorem new_claim_witness :
    VirtQueue.new ⟨fun _ => false, 4⟩ 0 4 = Except.ok (freshQueue 0 4) ∧
    nxt (freshQueue 0 4).desc 0 = 1 ∧
    VirtQueue.new ⟨fun _ => false, 4⟩ 0 3 = Except.error Error.InvalidParam ∧
    VirtQueue.new ⟨fun _ => true, 4⟩ 0 4 = Except.error Error.AlreadyUsed := by
  refine ⟨?_, ?_, ?_, ?_⟩
  · exact ((new_claim ⟨fun _ => false, 4⟩ 0 4).2.2 rfl (by decide) (by decide)).1
  · exact ((new_claim ⟨fun _ => false, 4⟩ 0 4).2.2 rfl (by decide) (by decide)).2.1
      0 (by decide)
  · exact (new_claim ⟨fun _ => false, 4⟩ 0 3).2.1 rfl (Or.inl (by decide))
  · exact (new_claim ⟨fun _ => true, 4⟩ 0 4).1 rfl

/-- C7: for every power-of-two queue size `Q`, the ring layout calculator
yields `avail_offset = 16·Q`,
`used_offset = align_up_to_page(16·Q + 2·(3 + Q))`, and
`total size = used_offset + align_up_to_page(6 + 8·Q)`. -/
theorem layout_claim (Q : Nat) (h : u16_is_power_of_two Q = true) :
    VirtQueueLayout.new Q = some
      { avail_offset := 16 * Q
        used_offset := align_up (16 * Q + 2 * (3 + Q))
        size := align_up (16 * Q + 2 * (3 + Q)) + align_up (6 + 8 * Q) } := by
  unfold VirtQueueLayout.new
  rw [h]
  simp only [Bool.not_true, Bool.false_eq_true, if_false, Option.some_inj]

/-- Witness for C7 at `Q = 4`: `avail_offset = 64`, `used_offset = 4096`,
`size = 8192`. -/
theorem layout_claim_witness :
    VirtQueueLayout.new 4 = some { avail_offset := 64
                                   used_offset := 4096
                                   size := 8192 } := by
  rw [layout_claim 4 (by decide)]
  rfl

/-- C1: every successful `add(inputs, outputs)` (on a queue whose free-list
prefix of `|inputs| + |outputs|` entries is made of distinct in-range
indices, as every reachable queue satisfies) returns the value of
`free_head` before the call as the token; the buffers are necessarily
non-null; one descriptor is taken from the free list per buffer, in
free-list order (the walked indices, paired in order with
`inputs ++ outputs`), each recording the HAL-shared physical address in
`addr`, the buffer length in `len`, and flags NEXT plus WRITE iff the buffer
comes from `outputs`, with NEXT cleared on the last descriptor;
`free_head` advances past the taken prefix; the token is written to
`avail.ring[avail_idx & (Q − 1)]`; `avail_idx` is incremented by one
(wrapping at 2^16) and copied to `avail.idx`; and `num_used` grows by
`|inputs| + |outputs|`. The second conjunct is the concrete layout of spec
scenario 4 on a fresh size-4 queue. -/
theorem add_success_claim :
    (∀ (q : VirtQueue) (inputs outputs : List (Option Buffer)) (tok : Nat)
        (q' : VirtQueue),
      q.add inputs outputs = some (Except.ok tok, q') →
      (walk q.desc q.free_head (inputs.length + outputs.length)).Nodup →
      (∀ k ∈ walk q.desc q.free_head (inputs.length + outputs.length),
        k < q.desc.length) →
      ∃ bi bo : List Buffer,
        inputs = bi.map some ∧ outputs = bo.map some ∧
        tok = q.free_head ∧
        q'.num_used = q.num_used + (inputs.length + outputs.length) ∧
        q'.avail.ring =
          q.avail.ring.set (q.avail_idx &&& (q.queue_size - 1)) q.free_head ∧
        q'.avail_idx = (q.avail_idx + 1) % 65536 ∧
        q'.avail.idx = (q.avail_idx + 1) % 65536 ∧
        q'.free_head = iterNext q.desc q.free_head (inputs.length + outputs.length) ∧
        (∀ p ∈ (walk q.desc q.free_head (inputs.length + outputs.length)).zip
            (bi.map (fun b => (b, BufferDirection.DriverToDevice)) ++
             bo.map (fun b => (b, BufferDirection.DeviceToDriver))),
          (q'.desc.getD p.1 default).addr = p.2.1.paddr ∧
          (q'.desc.getD p.1 default).len = p.2.1.len ∧
          (q'.desc.getD p.1 default).next = nxt q.desc p.1 ∧
          (q'.desc.getD p.1 default).flags =
            ((if p.1 = iterNext q.desc q.free_head
                  ((inputs.length + outputs.length) - 1)
              then 0 else FLAG_NEXT) |||
             (if p.2.2 = BufferDirection.DeviceToDriver then FLAG_WRITE else 0)))) ∧
    ((freshQueue 0 4).add exIb exOb = some (Except.ok 0, exQueueAfterAdd) ∧
     exQueueAfterAdd.avail.ring.getD 0 0 = 0 ∧
     exQueueAfterAdd.desc = [⟨1000, 2, 1, 1⟩, ⟨2000, 1, 1, 2⟩,
       ⟨3000, 2, 3, 3⟩, ⟨4000, 1, 2, 0⟩] ∧
     exQueueAfterAdd.available_desc = 0 ∧
     exQueueAfterAdd.can_pop = false) := by
  refine ⟨?_, rfl, rfl, rfl, rfl, rfl⟩
  intro q inputs outputs tok q' h hnd hbd
  obtain ⟨bufs, desc1, fh, last, hiter, hne, hfit, heq, htok, hq'⟩ :=
    add_ok_elim _ _ _ _ _ h
  obtain ⟨bi, bo, hbi, hbo, hb⟩ := input_output_iter_eq_some _ _ _ hiter
  have hlen : bufs.length = inputs.length + outputs.length :=
    input_output_iter_length _ _ _ hiter
  have hn_pos : 0 < inputs.length + outputs.length := by
    rcases Nat.eq_zero_or_pos (inputs.length + outputs.length) with h0 | h0
    · exfalso
      apply hne
      have hi0 : inputs = [] := List.length_eq_zero.mp (by omega)
      have ho0 : outputs = [] := List.length_eq_zero.mp (by omega)
      subst hi0; subst ho0
      exact ⟨rfl, rfl⟩
    · exact h0
  have hbufs_ne : bufs ≠ [] := by
    intro h0
    rw [h0] at hlen
    simp at hlen
    omega
  have hdesc1 : desc1 = (addLoop bufs q.desc q.free_head q.free_head).1 := by
    rw [heq]
  have hfh : fh = iterNext q.desc q.free_head (inputs.length + outputs.length) := by
    have := addLoop_fh bufs q.desc q.free_head q.free_head
    rw [heq, hlen] at this
    exact this
  have hlast : last = iterNext q.desc q.free_head
      ((inputs.length + outputs.length) - 1) := by
    have := addLoop_last bufs q.desc q.free_head q.free_head hbufs_ne
    rw [heq, hlen] at this
    exact this
  have hlen1 : desc1.length = q.desc.length := by
    rw [hdesc1]
    exact addLoop_length bufs q.desc q.free_head q.free_head
  have hlast_memW : last ∈ walk q.desc q.free_head (inputs.length + outputs.length) := by
    rw [hlast]
    exact iterNext_mem_walk _ _ (by omega)
  have hlast_lt : last < desc1.length := by
    rw [hlen1]
    exact hbd last hlast_memW
  subst hq'
  refine ⟨bi, bo, hbi, hbo, htok, by simp, rfl, rfl, rfl, ?_, ?_⟩
  · show fh = _
    exact hfh
  · intro p hp
    rw [← hb] at hp
    have hp1 : p.1 ∈ walk q.desc q.free_head (inputs.length + outputs.length) :=
      (List.of_mem_zip hp).1
    have hzs := addLoop_zip_spec bufs q.desc q.free_head q.free_head
      (by rw [hlen]; exact hnd) (by rw [hlen]; exact hbd) p
      (by rw [hlen]; exact hp)
    by_cases hpl : p.1 = last
    · have hget : (desc1.set last { desc1.getD last default with
          flags := (desc1.getD last default).flags &&& 65534 }).getD p.1 default =
          { desc1.getD last default with
            flags := (desc1.getD last default).flags &&& 65534 } := by
        rw [hpl]
        exact getD_set_self _ _ _ hlast_lt
      have hd1 : desc1.getD last default =
          (q.desc.getD p.1 default).set_buf p.2.1 p.2.2 FLAG_NEXT := by
        rw [← hpl, hdesc1]
        exact hzs
      refine ⟨?_, ?_, ?_, ?_⟩
      · show ((desc1.set last _).getD p.1 default).addr = _
        rw [hget, hd1]
        rfl
      · show ((desc1.set last _).getD p.1 default).len = _
        rw [hget, hd1]
        rfl
      · show ((desc1.set last _).getD p.1 default).next = _
        rw [hget, hd1]
        rfl
      · show ((desc1.set last _).getD p.1 default).flags = _
        rw [hget, hd1, if_pos (by rw [hpl, hlast])]
        show ((q.desc.getD p.1 default).set_buf p.2.1 p.2.2 FLAG_NEXT).flags &&& 65534
          = _
        cases hdir : p.2.2 <;>
          simp [Descriptor.set_buf, FLAG_NEXT, FLAG_WRITE, hdir] <;> decide
    · have hget : (desc1.set last { desc1.getD last default with
          flags := (desc1.getD last default).flags &&& 65534 }).getD p.1 default =
          desc1.getD p.1 default :=
        getD_set_ne _ _ _ (fun hx => hpl hx.symm)
      have hcond : ¬(p.1 = iterNext q.desc q.free_head
          ((inputs.length + outputs.length) - 1)) := by
        rw [← hlast]
        exact hpl
      rw [hdesc1] at hget
      refine ⟨?_, ?_, ?_, ?_⟩
      · show ((desc1.set last _).getD p.1 default).addr = _
        rw [hdesc1, hget, hzs]
        rfl
      · show ((desc1.set last _).getD p.1 default).len = _
        rw [hdesc1, hget, hzs]
        rfl
      · show ((desc1.set last _).getD p.1 default).next = _
        rw [hdesc1, hget, hzs]
        rfl
      · show ((desc1.set last _).getD p.1 default).flags = _
        rw [hdesc1, hget, hzs, if_neg hcond]
        cases hdir : p.2.2 <;>
          simp [Descriptor.set_buf, FLAG_NEXT, FLAG_WRITE, hdir] <;> decide

/-- Witness for C1: the general characterisation applied to the scenario-4
add on the fresh size-4 queue. -/
theorem add_success_claim_witness :
    ∃ bi bo : List Buffer,
      exIb = bi.map some ∧ exOb = bo.map some ∧
      (0 : Nat) = (freshQueue 0 4).free_head ∧
      exQueueAfterAdd.num_used =
        (freshQueue 0 4).num_used + (exIb.length + exOb.length) ∧
      exQueueAfterAdd.avail.ring =
        (freshQueue 0 4).avail.ring.set
          ((freshQueue 0 4).avail_idx &&& ((freshQueue 0 4).queue_size - 1))
          (freshQueue 0 4).free_head ∧
      exQueueAfterAdd.avail_idx = ((freshQueue 0 4).avail_idx + 1) % 65536 ∧
      exQueueAfterAdd.avail.idx = ((freshQueue 0 4).avail_idx + 1) % 65536 ∧
      exQueueAfterAdd.free_head =
        iterNext (freshQueue 0 4).desc (freshQueue 0 4).free_head
          (exIb.length + exOb.length) ∧
      (∀ p ∈ (walk (freshQueue 0 4).desc (freshQueue 0 4).free_head
          (exIb.length + exOb.length)).zip
          (bi.map (fun b => (b, BufferDirection.DriverToDevice)) ++
           bo.map (fun b => (b, BufferDirection.DeviceToDriver))),
        (exQueueAfterAdd.desc.getD p.1 default).addr = p.2.1.paddr ∧
        (exQueueAfterAdd.desc.getD p.1 default).len = p.2.1.len ∧
        (exQueueAfterAdd.desc.getD p.1 default).next = nxt (freshQueue 0 4).desc p.1 ∧
        (exQueueAfterAdd.desc.getD p.1 default).flags =
          ((if p.1 = iterNext (freshQueue 0 4).desc (freshQueue 0 4).free_head
                ((exIb.length + exOb.length) - 1)
            then 0 else FLAG_NEXT) |||
           (if p.2.2 = BufferDirection.DeviceToDriver then FLAG_WRITE else 0))) :=
  add_success_claim.1 (freshQueue 0 4) exIb exOb 0 exQueueAfterAdd rfl
    (by decide) (by decide)

end VirtioQueue
